import Mathlib

/-!
The container `veclib::vector`: a growable array over a raw storage block.

Shallow embedding of `src/custom_vector.h`.

* The storage block `data` is a list of slots, one per allocated element
  position. A slot is `some x` when an element `x` has been constructed in it
  (placement `new`) and `none` when it is raw memory.
* The source counts the loops of `reserve` and of `operator<<` with an `int`
  compared against a `size_t`. `int_loop` is that loop: it has no result when
  the counter would exceed `INT_MAX`. `reserve_int`, `append_int`,
  `append_each_int`, `append_list_int`, `object.reserve_int`,
  `object.append_int` and `vector.operator_lshift` run on it and compute
  `_capacity * 2` and `++_size` in `size_t`.
* `vector.reserve`, `vector.append`, `object.reserve` and `object.append` are
  the same members with exact indices `0 .. _size-1` and exact arithmetic. They
  agree with the `int` versions when `_size <= 2^31 - 1` (`reserve_int_sound`,
  `append_int_sound`, `object_reserve_int_eq`, `object_append_int_eq`), and the
  `int` versions have no result above that (`reserve_int_overflow`,
  `object_reserve_int_overflow`).
* The source binds the argument of `append` as a forwarding reference and reads
  it in the placement `new`, after `resize()`. `object.append_int` takes an
  `argument`: an object outside the blocks, or an element of a block, read at
  that moment. `vector.append` and `object.append` take the value of an
  argument held outside the container's block.
* The allocator is the capability `allocate n`, which hands out a block of `n`
  raw slots; the definitions of the first section describe the runs in which
  every allocation request is satisfied. The definitions under "The container
  as an object in memory" keep the blocks in a memory addressed by `data`, let
  the allocator and the element constructor fail, and log the allocator calls
  and element lifetime events; on an object that owns its block they agree with
  the first section.
* Moving an element (`T(std::move(data[i]))`) transfers its value.
* A C++ exception is an `Except.error`.
-/

namespace veclib

/-- Abnormal outcomes of an indexed access. `out_of_range` is the
`std::out_of_range` thrown by `at`. `uninitialized_read` marks a read of a slot
in which no element was constructed; the source has no check for it. -/
inductive Exn where
  | out_of_range
  | uninitialized_read
  deriving DecidableEq, Repr

/-- The private members of `veclib::vector<T>`: `_capacity`, `_size` and the
block `data` points to. -/
structure vector (T : Type) where
  _capacity : Nat
  _size : Nat
  data : List (Option T)
  deriving DecidableEq, Repr

/-- The call `alloc.allocate(n)`: a fresh block of `n` raw slots. -/
def allocate (T : Type) (n : Nat) : List (Option T) :=
  List.replicate n none

/-- The slot `block[i]` reached through the raw pointer `block + i`. -/
def slot {T : Type} (block : List (Option T)) (i : Nat) : Option T :=
  (block.get? i).join

/-- The largest `int`. -/
def INT_MAX : Int := 2 ^ 31 - 1

/-- The conversion of an `int` to `size_t`. -/
def to_size_t (i : Int) : Nat := (i % 2 ^ 64).toNat

/-- The loop `for (int i = 0; i < this->_size; i++)` of `reserve`, started at
`i`: the values of `i` at which the body runs, in order. The comparison
converts `i` to `size_t`. `none` when `i++` would exceed `INT_MAX` or when the
loop has not ended after `fuel` tests. -/
def int_loop (size : Nat) : Nat → Int → Option (List Int)
  | 0, _ => none
  | fuel + 1, i =>
    if to_size_t i < size then
      if i + 1 ≤ INT_MAX then (int_loop size fuel (i + 1)).map (fun rest => i :: rest)
      else none
    else some []

namespace vector

variable {T : Type}

/-- The default constructor `vector()`: capacity 1, size 0, one allocated slot. -/
def new : vector T :=
  { _capacity := 1, _size := 0, data := allocate T 1 }

/-- The accessor `size()`. -/
def size (v : vector T) : Nat := v._size

/-- The accessor `capacity()`. -/
def capacity (v : vector T) : Nat := v._capacity

/-- The member `reserve(new_capacity)`: returns at once when `new_capacity <= _capacity`;
otherwise allocates `new_capacity` slots, move-constructs the elements
`0 .. _size-1` into the new block in index order, destructs them in the old
block, releases the old block and adopts the new one. The destruction loop and
the deallocation act on the old block only, which is gone afterwards. The loops
run over the exact indices `0 .. _size-1`; `reserve_int` is the member with the
`int` counters of the source, and the two agree when `_size <= 2^31 - 1`. -/
def reserve (v : vector T) (new_capacity : Nat) : vector T :=
  if new_capacity ≤ v._capacity then v
  else
    let new_data := (List.range v._size).foldl
      (fun nd i => nd.set i (slot v.data i)) (allocate T new_capacity)
    { _capacity := new_capacity, _size := v._size, data := new_data }

/-- The private member `resize()`: `reserve(_capacity * 2)`. -/
def resize (v : vector T) : vector T :=
  v.reserve (v._capacity * 2)

/-- The member `append(U&& value)`: grows when `_capacity == _size`, constructs the value
in slot `_size`, increments `_size`. `value` is the value of an argument held
outside the container's block; `object.append_int` is the member with the
forwarding reference of the source, read after `resize()`, and `append_int` the
member with the `int` counters and `size_t` arithmetic of the source. -/
def append (v : vector T) (value : T) : vector T :=
  let v1 := if v._capacity = v._size then v.resize else v
  { v1 with data := v1.data.set v1._size (some value), _size := v1._size + 1 }

/-- The member `append(std::initializer_list<T> list)`: the range-for loop calling
`append(e)` for each element. -/
def append_list (v : vector T) (list : List T) : vector T :=
  list.foldl (fun w e => w.append e) v

/-- The constructor `vector(std::initializer_list<T> list)`: delegates to `vector()`, then
`append(list)`. -/
def of_list (list : List T) : vector T :=
  (new : vector T).append_list list

/-- The constructor `vector(T&& t, Args&&... args)`: delegates to `vector()`, appends `t`, then
each of `args` from left to right (the fold expression over the comma). -/
def variadic (t : T) (args : List T) : vector T :=
  args.foldl (fun w a => w.append a) ((new : vector T).append t)

/-- The private member `at(index)`: throws `out_of_range` when `index >= _size`, otherwise yields
the element in `data[index]`. -/
def «at» (v : vector T) (index : Nat) : Except Exn T :=
  if index ≥ v._size then Except.error Exn.out_of_range
  else match slot v.data index with
    | some x => Except.ok x
    | none => Except.error Exn.uninitialized_read

/-- The member `operator[](index)`: `at(index)`. -/
def operator_index (v : vector T) (index : Nat) : Except Exn T :=
  v.«at» index

/-- The write form `v[index] = value`: `at(index)` throws or returns a
reference to `data[index]`, through which the value is assigned. -/
def operator_index_assign (v : vector T) (index : Nat) (value : T) :
    Except Exn (vector T) :=
  if index ≥ v._size then Except.error Exn.out_of_range
  else Except.ok { v with data := v.data.set index (some value) }

/-- The stream insertion `operator<<(os, v)`: writes `[`, runs the loop
`for (int i = 0; i < v.size(); i++)`, whose body writes the element `v[i]`
followed by `", "` unless `i == v.size()-1`, then writes `]`. Both comparisons
and the index convert `i` to `size_t`, and `v.size()-1` is computed in `size_t`.
`text` is the element type's own stream insertion. `none` when `i++` would
exceed `INT_MAX` or the loop has not ended after `fuel` tests. -/
def operator_lshift (text : T → String) (fuel : Nat) (os : String) (v : vector T) :
    Option (Except Exn String) :=
  match int_loop v.size fuel 0 with
  | none => none
  | some indices =>
    some (do
      let os1 := os ++ "["
      let os2 ← indices.foldlM (fun (acc : String) (i : Int) =>
        if to_size_t i = (v.size + 2 ^ 64 - 1) % 2 ^ 64 then do
          let x ← v.operator_index (to_size_t i)
          pure (acc ++ text x)
        else do
          let x ← v.operator_index (to_size_t i)
          pure (acc ++ text x ++ ", ")) os1
      pure (os2 ++ "]"))

end vector

/-- The live elements: what the slots `0 .. _size-1` of the block hold, in
index order. -/
def contents {T : Type} (v : vector T) : List T :=
  (v.data.take v._size).reduceOption

/-- Single-element append called once per element of `ys`, in order: the
reading of "repeated single-element append" in the description of
`append(sequence-of-values)`. -/
def append_each {T : Type} (v : vector T) : List T → vector T
  | [] => v
  | y :: ys => append_each (v.append y) ys

/-- States a program can bring a container into: the three constructors,
closed under the operations that change the object (`append` of a value,
`append` of a sequence, `reserve`, assignment through `operator[]`). The
remaining public operations (`size`, `capacity`, `begin`, `end`, reading
`operator[]`, `operator<<`) leave every member as it is. -/
inductive Reachable {T : Type} : vector T → Prop
  | new : Reachable vector.new
  | of_list (list : List T) : Reachable (vector.of_list list)
  | variadic (t : T) (args : List T) : Reachable (vector.variadic t args)
  | append (v : vector T) (value : T) : Reachable v → Reachable (v.append value)
  | append_list (v : vector T) (list : List T) :
      Reachable v → Reachable (v.append_list list)
  | reserve (v : vector T) (k : Nat) : Reachable v → Reachable (v.reserve k)
  | assign (v w : vector T) (i : Nat) (value : T) : Reachable v →
      v.operator_index_assign i value = Except.ok w → Reachable w

/-- The state with live elements `xs` in a block of `c` slots. -/
def canon {T : Type} (xs : List T) (c : Nat) : vector T :=
  { _capacity := c, _size := xs.length,
    data := xs.map some ++ List.replicate (c - xs.length) none }

/-- The capacity in force after an `append` performed at capacity `c` and
size `n`. -/
def cap_step (c n : Nat) : Nat := if c = n then c * 2 else c

/-- The capacity in force after `m` appends started at capacity `c` and size
`n`. -/
def cap_run (c n : Nat) : Nat → Nat
  | 0 => c
  | m + 1 => cap_run (cap_step c n) (n + 1) m

/-! ## The container as an object in memory

The definitions above keep the block inside the state. The definitions of this
section keep it in a memory of blocks addressed by the pointer `data`, make the
allocator and the element constructor fallible, and record the allocator calls
and the element lifetime events in program order. -/

/-- Allocator calls and element lifetime events. `allocate p n`: the call
`allocate(n)` returned the block `p`. `move_construct dst src i`:
`new (dst + i) T(std::move(src[i]))`. `construct p i`: `new (p + i) T(value)`.
`destruct p i`: `p[i].~T()`. `deallocate p n`: the call `deallocate(p, n)`. -/
inductive Event where
  | allocate (block n : Nat)
  | move_construct (dst src i : Nat)
  | construct (block i : Nat)
  | destruct (block i : Nat)
  | deallocate (block n : Nat)
  deriving DecidableEq, Repr

/-- Exceptions leaving `reserve` and `append`: the allocator's failure, and a
failure of the element constructor `T(std::forward<U>(value))`. -/
inductive Thrown where
  | bad_alloc
  | construction
  deriving DecidableEq, Repr

/-- The memory: block `p` is `some slots` while it is allocated and `none` once
it has been released; `log` lists the events so far, oldest first. -/
structure memory (T : Type) where
  blocks : List (Option (List (Option T)))
  log : List Event
  deriving DecidableEq, Repr

/-- The members of one instance of `veclib::vector<T>`; `data` is the address
of its block. -/
structure object where
  _capacity : Nat
  _size : Nat
  data : Nat
  deriving DecidableEq, Repr

/-- What a member function leaves behind: the exception it threw, if any, the
members of the object and the memory. -/
structure outcome (T : Type) where
  thrown : Option Thrown
  obj : object
  mem : memory T
  deriving DecidableEq, Repr

/-- A `T*`: a block and a position in it. -/
structure pointer where
  block : Nat
  offset : Nat
  deriving DecidableEq, Repr

/-- What the forwarding reference `value` of `append(U&& value)` is bound to.
`object value`: an object outside every block of the memory, from which
`T(std::forward<U>(value))` constructs `value` (`none`: the constructor throws).
`element p`: the element at `p` in a block, as in `v.append(v[0])`; the
constructor copies what `p` points to when the placement `new` runs. -/
inductive argument (T : Type) where
  | object (value : Option T)
  | element (p : pointer)

namespace memory

variable {T : Type}

/-- The slots of block `p` (no slots when `p` is not an allocated block). -/
def block (m : memory T) (p : Nat) : List (Option T) :=
  ((m.blocks.get? p).join).getD []

/-- Replaces the slots of block `p` by `f` of them; a block that is not
allocated is left alone. -/
def write (m : memory T) (p : Nat) (f : List (Option T) → List (Option T)) :
    List (Option (List (Option T))) :=
  match (m.blocks.get? p).join with
  | some b => m.blocks.set p (some (f b))
  | none => m.blocks

/-- The call `alloc.allocate(n)` under the allocator `ok`: when `ok n` holds it
returns a new block of `n` raw slots, otherwise it throws (`none`). -/
def allocate (ok : Nat → Bool) (m : memory T) (n : Nat) : Option (Nat × memory T) :=
  if ok n then
    some (m.blocks.length,
      { blocks := m.blocks ++ [some (veclib.allocate T n)],
        log := m.log ++ [Event.allocate m.blocks.length n] })
  else none

/-- The statement `new (dst + i) T(std::move(src[i]))`. -/
def move_construct (m : memory T) (dst src i : Nat) : memory T :=
  { blocks := m.write dst (fun b => b.set i (slot (m.block src) i)),
    log := m.log ++ [Event.move_construct dst src i] }

/-- The statement `new (p + i) T(value)` for a value whose construction
succeeds with `x`. -/
def construct (m : memory T) (p i : Nat) (x : T) : memory T :=
  { blocks := m.write p (fun b => b.set i (some x)),
    log := m.log ++ [Event.construct p i] }

/-- The statement `p[i].~T()`: the slot is raw memory afterwards. -/
def destruct (m : memory T) (p i : Nat) : memory T :=
  { blocks := m.write p (fun b => b.set i none),
    log := m.log ++ [Event.destruct p i] }

/-- The call `alloc.deallocate(p, n)`. -/
def deallocate (m : memory T) (p n : Nat) : memory T :=
  { blocks := m.blocks.set p none,
    log := m.log ++ [Event.deallocate p n] }

/-- An assignment `p[i] = x` through a reference to a live element. -/
def assign (m : memory T) (p i : Nat) (x : T) : memory T :=
  { blocks := m.write p (fun b => b.set i (some x)), log := m.log }

/-- The element `*it`. -/
def deref (m : memory T) (it : pointer) : Option T :=
  slot (m.block it.block) it.offset

/-- The range-for statement `for (it = first; it != last; ++it) visit(*it)`:
the pointers visited and what they point to, in order; `none` when the loop has
not ended after `fuel` steps. -/
def range_for (m : memory T) (last : pointer) : Nat → pointer → Option (List (pointer × Option T))
  | 0, it => if it = last then some [] else none
  | fuel + 1, it =>
    if it = last then some []
    else (range_for m last fuel { block := it.block, offset := it.offset + 1 }).map
      (fun rest => (it, m.deref it) :: rest)

end memory

namespace object

variable {T : Type}

/-- The default constructor `vector()`: `_capacity(1), _size(0)`, then
`data = alloc.allocate(_capacity)`; `none` when the allocation throws. -/
def new (ok : Nat → Bool) (m : memory T) : Option (object × memory T) :=
  match m.allocate ok 1 with
  | none => none
  | some (p, m1) => some ({ _capacity := 1, _size := 0, data := p }, m1)

/-- The member `reserve(new_capacity)`, statement by statement: the early
return, the allocation, the relocation loop, the destruction loop, the
deallocation of the old block, the two assignments. The loops run over the
exact indices `0 .. _size-1`; `reserve_int` below is the member with the `int`
counters of the source, and the two agree when `_size <= 2^31 - 1`. -/
def reserve (ok : Nat → Bool) (o : object) (m : memory T) (new_capacity : Nat) : outcome T :=
  if new_capacity ≤ o._capacity then { thrown := none, obj := o, mem := m }
  else
    match m.allocate ok new_capacity with
    | none => { thrown := some Thrown.bad_alloc, obj := o, mem := m }
    | some (new_data, m1) =>
      let m2 := (List.range o._size).foldl (fun mm i => mm.move_construct new_data o.data i) m1
      let m3 := (List.range o._size).foldl (fun mm i => mm.destruct o.data i) m2
      let m4 := m3.deallocate o.data o._capacity
      { thrown := none,
        obj := { _capacity := new_capacity, _size := o._size, data := new_data },
        mem := m4 }

/-- The private member `resize()`: `reserve(_capacity * 2)`. -/
def resize (ok : Nat → Bool) (o : object) (m : memory T) : outcome T :=
  o.reserve ok m (o._capacity * 2)

/-- The member `append(U&& value)`. `value` is the result of the element
constructor `T(std::forward<U>(value))`: `some x` when it constructs `x`,
`none` when it throws. An exception leaves the function at the statement that
raised it. The argument is held outside the blocks and the arithmetic is exact;
`append_int` below is the member as the source runs it. -/
def append (ok : Nat → Bool) (o : object) (m : memory T) (value : Option T) : outcome T :=
  let r : outcome T :=
    if o._capacity = o._size then o.resize ok m else { thrown := none, obj := o, mem := m }
  match r.thrown with
  | some _ => r
  | none =>
    match value with
    | none => { thrown := some Thrown.construction, obj := r.obj, mem := r.mem }
    | some x =>
      { thrown := none,
        obj := { _capacity := r.obj._capacity, _size := r.obj._size + 1, data := r.obj.data },
        mem := r.mem.construct r.obj.data r.obj._size x }

/-- The destructor `~vector()`: destructs the elements `0 .. _size-1`, then
`alloc.deallocate(data, _capacity)`. -/
def destroy (o : object) (m : memory T) : memory T :=
  ((List.range o._size).foldl (fun mm i => mm.destruct o.data i) m).deallocate
    o.data o._capacity

/-- The copy constructor. The class declares none, so it is the implicit one:
each member is copied, `data` as a pointer. -/
def copy (o : object) : object :=
  { _capacity := o._capacity, _size := o._size, data := o.data }

/-- The write form `v[index] = value`. -/
def operator_index_assign (o : object) (m : memory T) (index : Nat) (value : T) :
    Except Exn (memory T) :=
  if index ≥ o._size then Except.error Exn.out_of_range
  else Except.ok (m.assign o.data index value)

/-- The member `begin()`: `data`. -/
def begin (o : object) : pointer := { block := o.data, offset := 0 }

/-- The member `end()`: `data + _size`. -/
def «end» (o : object) : pointer := { block := o.data, offset := o._size }

/-- The state of the first section that the object stands for: its members and
the slots of its block. -/
def view (o : object) (m : memory T) : vector T :=
  { _capacity := o._capacity, _size := o._size, data := m.block o.data }

/-- States of one instance: constructed in some memory, then changed by
`append` (whatever its outcome), `reserve` (whatever its outcome) and
assignments through `operator[]`. -/
inductive Reachable : object → memory T → Prop
  | new (ok : Nat → Bool) (m m1 : memory T) (o : object) :
      object.new ok m = some (o, m1) → Reachable o m1
  | append (ok : Nat → Bool) (o : object) (m : memory T) (value : Option T) :
      Reachable o m → Reachable (o.append ok m value).obj (o.append ok m value).mem
  | reserve (ok : Nat → Bool) (o : object) (m : memory T) (k : Nat) :
      Reachable o m → Reachable (o.reserve ok m k).obj (o.reserve ok m k).mem
  | assign (o : object) (m m1 : memory T) (i : Nat) (value : T) :
      Reachable o m → o.operator_index_assign m i value = Except.ok m1 → Reachable o m1

/-- Single-element appends of the values `xs`, in order, all constructions
succeeding; stops at the first exception. -/
def append_each (ok : Nat → Bool) (o : object) (m : memory T) : List T → outcome T
  | [] => { thrown := none, obj := o, mem := m }
  | x :: xs =>
    match (o.append ok m (some x)).thrown with
    | some t => { thrown := some t, obj := (o.append ok m (some x)).obj,
                  mem := (o.append ok m (some x)).mem }
    | none => append_each ok (o.append ok m (some x)).obj (o.append ok m (some x)).mem xs

/-- The member `reserve(new_capacity)` with both loops run on an `int`
counter: `none` when a counter would exceed `INT_MAX` (or the loop has not ended
after `fuel` tests), otherwise as `reserve`. -/
def reserve_int (fuel : Nat) (ok : Nat → Bool) (o : object) (m : memory T)
    (new_capacity : Nat) : Option (outcome T) :=
  if new_capacity ≤ o._capacity then some { thrown := none, obj := o, mem := m }
  else
    match m.allocate ok new_capacity with
    | none => some { thrown := some Thrown.bad_alloc, obj := o, mem := m }
    | some (new_data, m1) =>
      match int_loop o._size fuel 0 with
      | none => none
      | some moved =>
        let m2 := moved.foldl (fun mm i => mm.move_construct new_data o.data i.toNat) m1
        match int_loop o._size fuel 0 with
        | none => none
        | some destructed =>
          let m3 := destructed.foldl (fun mm i => mm.destruct o.data i.toNat) m2
          let m4 := m3.deallocate o.data o._capacity
          some { thrown := none,
                 obj := { _capacity := new_capacity, _size := o._size, data := new_data },
                 mem := m4 }

/-- The member `append(U&& value)` as the source runs it: `resize()` computes
`_capacity * 2` in `size_t` and calls `reserve` with its `int` counters; only
then the placement `new` reads what `value` refers to; `++_size` is computed in
`size_t`. `none` when `reserve` has no result or when `value` refers to memory
that holds no element at that moment (a released block, a raw slot). -/
def append_int (fuel : Nat) (ok : Nat → Bool) (o : object) (m : memory T)
    (value : argument T) : Option (outcome T) :=
  match (if o._capacity = o._size then o.reserve_int fuel ok m (o._capacity * 2 % 2 ^ 64)
         else some { thrown := none, obj := o, mem := m }) with
  | none => none
  | some r =>
    match r.thrown with
    | some _ => some r
    | none =>
      match value with
      | argument.object none =>
        some { thrown := some Thrown.construction, obj := r.obj, mem := r.mem }
      | argument.object (some x) =>
        some { thrown := none,
               obj := { _capacity := r.obj._capacity,
                        _size := (r.obj._size + 1) % 2 ^ 64, data := r.obj.data },
               mem := r.mem.construct r.obj.data r.obj._size x }
      | argument.element p =>
        match r.mem.deref p with
        | none => none
        | some x =>
          some { thrown := none,
                 obj := { _capacity := r.obj._capacity,
                          _size := (r.obj._size + 1) % 2 ^ 64, data := r.obj.data },
                 mem := r.mem.construct r.obj.data r.obj._size x }

end object

/-- The object `o` owns a live block of `_capacity` slots that was allocated
with that count, whose first `_size` slots hold the elements `xs` and whose
other slots are raw. -/
def object.holds {T : Type} (o : object) (m : memory T) (xs : List T) : Prop :=
  m.blocks.get? o.data = some (some (canon xs o._capacity).data) ∧
  o._size = xs.length ∧ xs.length ≤ o._capacity ∧ 1 ≤ o._capacity ∧
  Event.allocate o.data o._capacity ∈ m.log

/-- The number of element relocations (move-constructions) in a log. -/
def relocations (log : List Event) : Nat :=
  log.countP (fun e => match e with
    | Event.move_construct _ _ _ => true
    | _ => false)

/-- The empty memory. -/
def memory.empty (T : Type) : memory T := { blocks := [], log := [] }

/-- The object after `vector<int> v; v.append(7); v.append(8);` run in the
empty memory with an allocator that satisfies every request. -/
def sample_object : object := { _capacity := 2, _size := 2, data := 1 }

/-- The memory after `vector<int> v; v.append(7); v.append(8);` run in the
empty memory with an allocator that satisfies every request. -/
def sample_memory : memory Nat :=
  { blocks := [none, some [some 7, some 8]],
    log := [Event.allocate 0 1, Event.construct 0 0, Event.allocate 1 2,
      Event.move_construct 1 0 0, Event.destruct 0 0, Event.deallocate 0 1,
      Event.construct 1 1] }

/-! ## Machine integers -/

/-- The member `reserve` with both loops run on an `int` counter. -/
def reserve_int {T : Type} (fuel : Nat) (v : vector T) (new_capacity : Nat) :
    Option (vector T) :=
  if new_capacity ≤ v._capacity then some v
  else
    match int_loop v._size fuel 0, int_loop v._size fuel 0 with
    | some moved, some _ =>
      some { _capacity := new_capacity, _size := v._size,
             data := moved.foldl (fun nd i => nd.set i.toNat (slot v.data i.toNat))
               (allocate T new_capacity) }
    | _, _ => none

/-- The private member `resize()` with `_capacity * 2` computed in `size_t`. -/
def resize64 {T : Type} (v : vector T) : vector T :=
  v.reserve (v._capacity * 2 % 2 ^ 64)

/-- The state in which `append` runs its placement `new`: after `resize()` when
`_capacity == _size`, the state itself otherwise. -/
def grown64 {T : Type} (v : vector T) : vector T :=
  if v._capacity = v._size then resize64 v else v

/-- The member `append` with `size_t` arithmetic. -/
def append64 {T : Type} (v : vector T) (value : T) : vector T :=
  { _capacity := (grown64 v)._capacity,
    _size := ((grown64 v)._size + 1) % 2 ^ 64,
    data := (grown64 v).data.set (grown64 v)._size (some value) }

/-- The member `append(U&& value)` as the source runs it, for an argument held
outside the container's block: `resize()` computes `_capacity * 2` in `size_t`
and calls `reserve` with its `int` counters, `++_size` is computed in `size_t`.
`none` when `reserve` has no result. -/
def append_int {T : Type} (fuel : Nat) (v : vector T) (value : T) : Option (vector T) :=
  match (if v._capacity = v._size then reserve_int fuel v (v._capacity * 2 % 2 ^ 64)
         else some v) with
  | none => none
  | some g =>
    some { _capacity := g._capacity, _size := (g._size + 1) % 2 ^ 64,
           data := g.data.set g._size (some value) }

/-- Single-element appends of the values of a list, in order, as the source
runs them. -/
def append_each_int {T : Type} (fuel : Nat) (v : vector T) : List T → Option (vector T)
  | [] => some v
  | x :: xs =>
    match append_int fuel v x with
    | none => none
    | some w => append_each_int fuel w xs

/-- The member `append(std::initializer_list<T> list)` as the source runs it:
the range-for loop calling `append(e)`. -/
def append_list_int {T : Type} (fuel : Nat) (v : vector T) (list : List T) :
    Option (vector T) :=
  list.foldlM (fun w e => append_int fuel w e) v

/-- The container after `v.reserve(k)` on an empty container followed by `k`
appends of the value 0. -/
def filled (k : Nat) : vector Nat :=
  append_each ((vector.new : vector Nat).reserve k) (List.replicate k 0)

/-! ## Relocation into a fresh block -/

theorem slot_of_lt {T : Type} (old : List (Option T)) (n : Nat) (h : n < old.length) :
    slot old n = old.get ⟨n, h⟩ := by
  simp [slot, List.getElem?_eq_getElem h]

theorem relocate_fold {T : Type} (old : List (Option T)) (k n : Nat)
    (hn : n ≤ old.length) (hk : n ≤ k) :
    (List.range n).foldl (fun nd i => nd.set i (slot old i)) (allocate T k)
      = old.take n ++ List.replicate (k - n) none := by
  induction n with
  | zero => simp [allocate]
  | succ n ih =>
    have hlt : n < old.length := hn
    rw [List.range_succ, List.foldl_append, ih (Nat.le_of_lt hlt) (Nat.le_of_lt hk)]
    have hk1 : k - n = (k - (n + 1)) + 1 := by omega
    simp only [List.foldl_cons, List.foldl_nil]
    rw [List.set_append]
    have hlen : (List.take n old).length = n := by simp [Nat.le_of_lt hlt]
    simp only [hlen, Nat.lt_irrefl, if_false, Nat.sub_self]
    rw [hk1, List.replicate_succ, List.set_cons_zero, slot_of_lt old n hlt]
    have ht : List.take (n + 1) old = List.take n old ++ [old.get ⟨n, hlt⟩] := by
      rw [List.take_succ, List.getElem?_eq_getElem hlt]; rfl
    rw [ht, List.append_assoc]
    rfl

/-! ## The operations on a state in canonical form -/

theorem canon_data_length {T : Type} (xs : List T) (c : Nat) (h : xs.length ≤ c) :
    (canon xs c).data.length = c := by
  simp [canon]; omega

theorem canon_take {T : Type} (xs : List T) (c : Nat) :
    (canon xs c).data.take xs.length = xs.map some := by
  simp [canon]

theorem reserve_canon {T : Type} (xs : List T) (c k : Nat) (h : xs.length ≤ c) :
    (canon xs c).reserve k = canon xs (max c k) := by
  unfold vector.reserve
  by_cases hk : k ≤ c
  · have h1 : k ≤ (canon xs c)._capacity := hk
    rw [if_pos h1, Nat.max_eq_left hk]
  · have h1 : ¬ k ≤ (canon xs c)._capacity := hk
    have hck : c ≤ k := by omega
    rw [if_neg h1, Nat.max_eq_right hck]
    have hsz : (canon xs c)._size = xs.length := rfl
    simp only [hsz]
    rw [relocate_fold (canon xs c).data k xs.length
      (by rw [canon_data_length xs c h]; exact h) (by omega), canon_take]
    rfl

theorem set_canon_data {T : Type} (xs : List T) (c : Nat) (x : T) (h : xs.length < c) :
    (xs.map some ++ List.replicate (c - xs.length) none).set xs.length (some x)
      = (xs ++ [x]).map some ++ List.replicate (c - (xs.length + 1)) none := by
  rw [List.set_append]
  have h1 : c - xs.length = (c - (xs.length + 1)) + 1 := by omega
  simp only [List.length_map, Nat.lt_irrefl, if_false, Nat.sub_self]
  rw [h1, List.replicate_succ, List.set_cons_zero]
  simp

theorem append_canon {T : Type} (xs : List T) (c : Nat) (x : T)
    (h : xs.length ≤ c) (hc : 1 ≤ c) :
    (canon xs c).append x = canon (xs ++ [x]) (cap_step c xs.length) := by
  unfold vector.append vector.resize cap_step
  have hcap : (canon xs c)._capacity = c := rfl
  have hsz : (canon xs c)._size = xs.length := rfl
  simp only [hcap, hsz]
  by_cases he : c = xs.length
  · rw [if_pos he, if_pos he, reserve_canon xs c (c * 2) h]
    have hm : max c (c * 2) = c * 2 := by omega
    rw [hm]
    have hlt : xs.length < c * 2 := by omega
    simp only [canon]
    rw [set_canon_data xs (c * 2) x hlt]
    simp
  · rw [if_neg he, if_neg he]
    have hlt : xs.length < c := by omega
    simp only [canon]
    rw [set_canon_data xs c x hlt]
    simp

theorem cap_step_bounds (c n : Nat) (h : n ≤ c) (hc : 1 ≤ c) :
    n + 1 ≤ cap_step c n ∧ 1 ≤ cap_step c n ∧ c ≤ cap_step c n := by
  unfold cap_step
  split <;> omega

theorem at_canon {T : Type} (xs : List T) (c i : Nat) (h : i < xs.length) :
    (canon xs c).«at» i = Except.ok (xs.get ⟨i, h⟩) := by
  unfold vector.«at»
  have hsz : (canon xs c)._size = xs.length := rfl
  have hn : ¬ i ≥ (canon xs c)._size := by rw [hsz]; omega
  rw [if_neg hn]
  have hs : slot (canon xs c).data i = some (xs.get ⟨i, h⟩) := by
    simp [slot, canon, List.getElem?_append_left, h]
  rw [hs]

theorem at_canon_ge {T : Type} (xs : List T) (c i : Nat) (h : xs.length ≤ i) :
    (canon xs c).«at» i = Except.error Exn.out_of_range := by
  unfold vector.«at»
  have hsz : (canon xs c)._size = xs.length := rfl
  have hn : i ≥ (canon xs c)._size := by rw [hsz]; omega
  rw [if_pos hn]

theorem contents_canon {T : Type} (xs : List T) (c : Nat) :
    contents (canon xs c) = xs := by
  unfold contents
  have hsz : (canon xs c)._size = xs.length := rfl
  rw [hsz, canon_take]
  simp [List.reduceOption]

theorem new_canon {T : Type} : (vector.new : vector T) = canon [] 1 := rfl

theorem foldl_append_canon {T : Type} (ys xs : List T) (c : Nat)
    (h : xs.length ≤ c) (hc : 1 ≤ c) :
    ys.foldl (fun w e => w.append e) (canon xs c)
      = canon (xs ++ ys) (cap_run c xs.length ys.length) := by
  induction ys generalizing xs c with
  | nil => simp [cap_run]
  | cons y ys ih =>
    have hb := cap_step_bounds c xs.length h hc
    rw [List.foldl_cons, append_canon xs c y h hc,
      ih (xs ++ [y]) (cap_step c xs.length) (by simpa using hb.1) hb.2.1]
    simp [cap_run]

theorem append_each_eq_foldl {T : Type} (ys : List T) (v : vector T) :
    append_each v ys = ys.foldl (fun w e => w.append e) v := by
  induction ys generalizing v with
  | nil => rfl
  | cons y ys ih => simp [append_each, ih]

theorem cap_run_bounds (m c n : Nat) (h : n ≤ c) (hc : 1 ≤ c) :
    n + m ≤ cap_run c n m ∧ 1 ≤ cap_run c n m ∧ c ≤ cap_run c n m := by
  induction m generalizing c n with
  | zero => simp [cap_run]; omega
  | succ m ih =>
    have hb := cap_step_bounds c n h hc
    have := ih (cap_step c n) (n + 1) hb.1 hb.2.1
    simp only [cap_run]
    omega

theorem cap_run_fits (m c n : Nat) (h : n + m ≤ c) : cap_run c n m = c := by
  induction m generalizing n with
  | zero => rfl
  | succ m ih =>
    have hne : ¬ c = n := by omega
    simp only [cap_run, cap_step, if_neg hne]
    exact ih (n + 1) (by omega)

theorem assign_canon {T : Type} (xs : List T) (c i : Nat) (x : T) (w : vector T)
    (hw : (canon xs c).operator_index_assign i x = Except.ok w) :
    w = canon (xs.set i x) c := by
  unfold vector.operator_index_assign at hw
  have hsz : (canon xs c)._size = xs.length := rfl
  by_cases hi : i ≥ (canon xs c)._size
  · rw [if_pos hi] at hw; cases hw
  · rw [if_neg hi] at hw
    rw [hsz] at hi
    have hlt : i < (xs.map some).length := by simp; omega
    injection hw with hw
    rw [← hw]
    simp only [canon, List.length_set]
    rw [List.set_append, if_pos hlt, List.map_set]

/-- Every reachable state is canonical: the first `_size` slots hold the live
elements, the remaining slots of the block are raw, the block has `_capacity`
slots, and `_size <= _capacity`, `1 <= _capacity`. -/
theorem reachable_canon {T : Type} (v : vector T) (hv : Reachable v) :
    ∃ xs c, v = canon xs c ∧ xs.length ≤ c ∧ 1 ≤ c := by
  induction hv with
  | new => exact ⟨[], 1, rfl, by simp, le_refl 1⟩
  | of_list list =>
    have hb := cap_run_bounds list.length 1 0 (by omega) (le_refl 1)
    refine ⟨[] ++ list, cap_run 1 0 list.length, ?_, by simpa using hb.1, hb.2.1⟩
    exact foldl_append_canon list [] 1 (by simp) (le_refl 1)
  | variadic t args =>
    have h1 : (vector.new : vector T).append t = canon ([] ++ [t]) (cap_step 1 0) :=
      append_canon [] 1 t (by simp) (le_refl 1)
    have hb := cap_run_bounds args.length (cap_step 1 0) 1 (by decide) (by decide)
    refine ⟨([] ++ [t]) ++ args, cap_run (cap_step 1 0) 1 args.length, ?_,
      by simpa [Nat.add_comm] using hb.1, hb.2.1⟩
    unfold vector.variadic
    rw [h1]
    exact foldl_append_canon args ([] ++ [t]) (cap_step 1 0)
      (by simp [cap_step]) (by decide)
  | append v value _ ih =>
    obtain ⟨xs, c, rfl, h, hc⟩ := ih
    have hb := cap_step_bounds c xs.length h hc
    exact ⟨xs ++ [value], cap_step c xs.length, append_canon xs c value h hc,
      by simpa using hb.1, hb.2.1⟩
  | append_list v list _ ih =>
    obtain ⟨xs, c, rfl, h, hc⟩ := ih
    have hb := cap_run_bounds list.length c xs.length h hc
    exact ⟨xs ++ list, cap_run c xs.length list.length,
      foldl_append_canon list xs c h hc, by simpa using hb.1, hb.2.1⟩
  | reserve v k _ ih =>
    obtain ⟨xs, c, rfl, h, hc⟩ := ih
    exact ⟨xs, max c k, reserve_canon xs c k h, by omega, by omega⟩
  | assign v w i value _ hw ih =>
    obtain ⟨xs, c, rfl, h, hc⟩ := ih
    exact ⟨xs.set i value, c, assign_canon xs c i value w hw, by simpa using h, hc⟩

theorem at_canon_append {T : Type} (xs ys : List T) (c d i : Nat) (h : i < xs.length) :
    (canon (xs ++ ys) d).«at» i = (canon xs c).«at» i := by
  have h2 : i < (xs ++ ys).length := by simp; omega
  rw [at_canon xs c i h, at_canon (xs ++ ys) d i h2]
  simp [List.getElem_append_left, h]

theorem at_canon_append_last {T : Type} (xs : List T) (x : T) (d : Nat) :
    (canon (xs ++ [x]) d).«at» xs.length = Except.ok x := by
  have h2 : xs.length < (xs ++ [x]).length := by simp
  rw [at_canon (xs ++ [x]) d xs.length h2]
  simp

/-! ## The capacity reached by appends on an empty container -/

theorem cap_run_succ (m c n : Nat) :
    cap_run c n (m + 1) = cap_step (cap_run c n m) (n + m) := by
  induction m generalizing c n with
  | zero => simp [cap_run]
  | succ m ih =>
    have h := ih (cap_step c n) (n + 1)
    simp only [cap_run] at h ⊢
    rw [h]
    have e : n + 1 + m = n + (m + 1) := by omega
    rw [e]

theorem cap_step_pow_clog (n : Nat) :
    cap_step (2 ^ Nat.clog 2 n) n = 2 ^ Nat.clog 2 (n + 1) := by
  have h2 : 1 < 2 := by decide
  have hle : n ≤ 2 ^ Nat.clog 2 n := Nat.le_pow_clog h2 n
  have hmono : Nat.clog 2 n ≤ Nat.clog 2 (n + 1) := Nat.clog_mono_right 2 (Nat.le_succ n)
  unfold cap_step
  by_cases he : 2 ^ Nat.clog 2 n = n
  · rw [if_pos he]
    have hpos : 1 ≤ n := by rw [← he]; exact Nat.one_le_two_pow
    have hlt : Nat.clog 2 n < Nat.clog 2 (n + 1) :=
      (Nat.pow_lt_iff_lt_clog h2).1 (by omega)
    have hup : Nat.clog 2 (n + 1) ≤ Nat.clog 2 n + 1 :=
      (Nat.le_pow_iff_clog_le h2).1 (by rw [pow_succ]; omega)
    have hk : Nat.clog 2 (n + 1) = Nat.clog 2 n + 1 := by omega
    rw [hk, pow_succ]
  · rw [if_neg he]
    have hup : Nat.clog 2 (n + 1) ≤ Nat.clog 2 n :=
      (Nat.le_pow_iff_clog_le h2).1 (by omega)
    have hk : Nat.clog 2 (n + 1) = Nat.clog 2 n := by omega
    rw [hk]

theorem cap_run_new (n : Nat) : cap_run 1 0 n = 2 ^ Nat.clog 2 n := by
  induction n with
  | zero => simp [cap_run]
  | succ n ih =>
    rw [cap_run_succ, ih, Nat.zero_add, cap_step_pow_clog]

theorem append_each_new {T : Type} (xs : List T) :
    append_each (vector.new : vector T) xs = canon xs (2 ^ Nat.clog 2 xs.length) := by
  rw [append_each_eq_foldl, new_canon, foldl_append_canon xs [] 1 (by simp) (le_refl 1),
    List.length_nil, cap_run_new, List.nil_append]

/-! ## Claims -/

/-- C2: in every reachable state (any constructor followed by any sequence of
operations that change the object) `size <= capacity` and `capacity >= 1`. -/
theorem reachable_size_le_capacity {T : Type} (v : vector T) (hv : Reachable v) :
    v.size ≤ v.capacity ∧ 1 ≤ v.capacity := by
  obtain ⟨xs, c, rfl, h, hc⟩ := reachable_canon v hv
  exact ⟨h, hc⟩

theorem reachable_size_le_capacity_witness :
    Reachable (((vector.of_list [1, 2, 3]).append 4).reserve 10) ∧
    ((((vector.of_list [1, 2, 3]).append 4).reserve 10).size
        ≤ (((vector.of_list [1, 2, 3]).append 4).reserve 10).capacity ∧
      1 ≤ (((vector.of_list [1, 2, 3]).append 4).reserve 10).capacity) :=
  ⟨Reachable.reserve _ 10 (Reachable.append _ 4 (Reachable.of_list [1, 2, 3])),
    reachable_size_le_capacity _
      (Reachable.reserve _ 10 (Reachable.append _ 4 (Reachable.of_list [1, 2, 3])))⟩

/-- C4: a freshly constructed empty container has capacity 1 and size 0; after
the values `xs` are appended one by one (no `reserve`), the capacity is a power
of two, it is at least `max N 1` for `N` the number of values, no smaller power
of two is, and the capacities seen after 0, 1, ..., `N` appends are exactly the
powers of two up to it, in non-decreasing order. -/
theorem capacity_smallest_power_of_two {T : Type} (xs : List T) :
    (vector.new : vector T).capacity = 1 ∧ (vector.new : vector T).size = 0 ∧
    (append_each (vector.new : vector T) xs).capacity = 2 ^ Nat.clog 2 xs.length ∧
    max xs.length 1 ≤ (append_each (vector.new : vector T) xs).capacity ∧
    (∀ j, max xs.length 1 ≤ 2 ^ j →
      (append_each (vector.new : vector T) xs).capacity ≤ 2 ^ j) ∧
    (∀ n, n ≤ xs.length → ∃ j, j ≤ Nat.clog 2 xs.length ∧
      (append_each (vector.new : vector T) (xs.take n)).capacity = 2 ^ j) ∧
    (∀ j, j ≤ Nat.clog 2 xs.length → ∃ n, n ≤ xs.length ∧
      (append_each (vector.new : vector T) (xs.take n)).capacity = 2 ^ j) ∧
    (∀ n m, n ≤ m →
      (append_each (vector.new : vector T) (xs.take n)).capacity
        ≤ (append_each (vector.new : vector T) (xs.take m)).capacity) := by
  have h2 : 1 < 2 := by decide
  have hcap : ∀ ys : List T,
      (append_each (vector.new : vector T) ys).capacity = 2 ^ Nat.clog 2 ys.length := by
    intro ys; rw [append_each_new]; rfl
  refine ⟨rfl, rfl, hcap xs, ?_, ?_, ?_, ?_, ?_⟩
  · rw [hcap]
    exact max_le (Nat.le_pow_clog h2 _) Nat.one_le_two_pow
  · intro j hj
    rw [hcap]
    have hl : xs.length ≤ 2 ^ j := le_trans (le_max_left _ _) hj
    exact Nat.pow_le_pow_right (by decide) ((Nat.le_pow_iff_clog_le h2).1 hl)
  · intro n hn
    refine ⟨Nat.clog 2 n, Nat.clog_mono_right 2 hn, ?_⟩
    rw [hcap, List.length_take, Nat.min_eq_left hn]
  · intro j hj
    by_cases he : j = Nat.clog 2 xs.length
    · refine ⟨xs.length, le_refl _, ?_⟩
      rw [List.take_length, hcap, he]
    · have hlt : j < Nat.clog 2 xs.length := by omega
      have hpow : 2 ^ j < xs.length := (Nat.pow_lt_iff_lt_clog h2).2 hlt
      refine ⟨2 ^ j, Nat.le_of_lt hpow, ?_⟩
      rw [hcap, List.length_take, Nat.min_eq_left (Nat.le_of_lt hpow), Nat.clog_pow 2 j h2]
  · intro n m hnm
    rw [hcap, hcap, List.length_take, List.length_take]
    apply Nat.pow_le_pow_right (by decide)
    apply Nat.clog_mono_right
    exact min_le_min_right _ hnm

theorem capacity_smallest_power_of_two_witness :
    (5 ≤ (append_each (vector.new : vector Nat) [10, 20, 30, 40, 50]).capacity ∧
      (append_each (vector.new : vector Nat) [10, 20, 30, 40, 50]).capacity ≤ 2 ^ 3) ∧
    (append_each (vector.new : vector Nat) ([10, 20, 30, 40, 50].take 2)).capacity
      ≤ (append_each (vector.new : vector Nat) ([10, 20, 30, 40, 50].take 4)).capacity :=
  ⟨⟨(capacity_smallest_power_of_two [10, 20, 30, 40, 50]).2.2.2.1,
    (capacity_smallest_power_of_two [10, 20, 30, 40, 50]).2.2.2.2.1 3 (by decide)⟩,
    (capacity_smallest_power_of_two [10, 20, 30, 40, 50]).2.2.2.2.2.2.2 2 4 (by decide)⟩

/-- C6: in a reachable state indexed access at `i`, in the read form and in the
write form, raises `out_of_range` exactly when `i >= size`; below the size the
read form returns the `i`-th live element, and the write form succeeds and
leaves a container of the same size and capacity in which index `i` reads the
assigned value and every other index reads what it read before. An empty
container after `reserve(10)` has capacity 10 and still raises at index 0. -/
theorem index_out_of_range_iff {T : Type} (v : vector T) (hv : Reachable v) (i : Nat) :
    (v.operator_index i = Except.error Exn.out_of_range ↔ v.size ≤ i) ∧
    (∀ x, v.operator_index_assign i x = Except.error Exn.out_of_range ↔ v.size ≤ i) ∧
    (i < v.size → ∃ y, (contents v).get? i = some y ∧ v.operator_index i = Except.ok y) ∧
    (i < v.size → ∀ x, ∃ w, v.operator_index_assign i x = Except.ok w ∧
      w.size = v.size ∧ w.capacity = v.capacity ∧
      w.operator_index i = Except.ok x ∧
      (∀ j, j ≠ i → w.operator_index j = v.operator_index j) ∧
      contents w = (contents v).set i x) ∧
    ((vector.new : vector T).reserve 10).capacity = 10 ∧
    ((vector.new : vector T).reserve 10).operator_index 0 = Except.error Exn.out_of_range := by
  obtain ⟨xs, c, rfl, h, hc⟩ := reachable_canon v hv
  have hsz : (canon xs c).size = xs.length := rfl
  have hsz2 : (canon xs c)._size = xs.length := rfl
  rw [hsz]
  refine ⟨?_, ?_, ?_, ?_, rfl, rfl⟩
  · constructor
    · intro he
      by_contra hlt
      have hi : i < xs.length := by omega
      have := at_canon xs c i hi
      rw [show (canon xs c).operator_index i = (canon xs c).«at» i from rfl] at he
      rw [this] at he
      cases he
    · intro hle
      exact at_canon_ge xs c i hle
  · intro x
    unfold vector.operator_index_assign
    rw [hsz2]
    by_cases hi : i ≥ xs.length
    · rw [if_pos hi]; simp; omega
    · rw [if_neg hi]; simp; omega
  · intro hi
    refine ⟨xs.get ⟨i, hi⟩, ?_, at_canon xs c i hi⟩
    rw [contents_canon]
    simp [List.getElem?_eq_getElem hi]
  · intro hi x
    have hw : (canon xs c).operator_index_assign i x
        = Except.ok { canon xs c with data := (canon xs c).data.set i (some x) } := by
      unfold vector.operator_index_assign
      rw [if_neg (show ¬ i ≥ (canon xs c)._size by rw [hsz2]; omega)]
    have hcan := assign_canon xs c i x _ hw
    have hlen : (xs.set i x).length = xs.length := List.length_set _ _ _
    refine ⟨_, hw, ?_⟩
    rw [hcan]
    refine ⟨hlen, rfl, ?_, ?_, ?_⟩
    · show (canon (xs.set i x) c).«at» i = Except.ok x
      rw [at_canon (xs.set i x) c i (by rw [hlen]; exact hi)]
      simp
    · intro j hj
      show (canon (xs.set i x) c).«at» j = (canon xs c).«at» j
      by_cases hjl : j < xs.length
      · rw [at_canon (xs.set i x) c j (by rw [hlen]; exact hjl), at_canon xs c j hjl]
        simp [List.getElem_set_ne (Ne.symm hj)]
      · rw [at_canon_ge (xs.set i x) c j (by rw [hlen]; omega),
          at_canon_ge xs c j (by omega)]
    · rw [contents_canon, contents_canon]

theorem index_out_of_range_iff_witness :
    Reachable (vector.of_list [7, 8, 9]) ∧ 1 < (vector.of_list [7, 8, 9]).size ∧
    (∃ y, (contents (vector.of_list [7, 8, 9])).get? 1 = some y ∧
      (vector.of_list [7, 8, 9]).operator_index 1 = Except.ok y) ∧
    (∃ w, (vector.of_list [7, 8, 9]).operator_index_assign 1 5 = Except.ok w ∧
      w.size = (vector.of_list [7, 8, 9]).size ∧
      w.capacity = (vector.of_list [7, 8, 9]).capacity ∧
      w.operator_index 1 = Except.ok 5 ∧
      (∀ j, j ≠ 1 → w.operator_index j = (vector.of_list [7, 8, 9]).operator_index j) ∧
      contents w = (contents (vector.of_list [7, 8, 9])).set 1 5) :=
  ⟨Reachable.of_list _, by decide,
    (index_out_of_range_iff (vector.of_list [7, 8, 9]) (Reachable.of_list _) 1).2.2.1
      (by decide),
    (index_out_of_range_iff (vector.of_list [7, 8, 9]) (Reachable.of_list _) 1).2.2.2.1
      (by decide) 5⟩

/-- In a reachable state the slots below the size hold exactly the live
elements. -/
theorem reachable_live {T : Type} (v : vector T) (hv : Reachable v) :
    v._size = (contents v).length ∧ v.data.take v._size = (contents v).map some := by
  obtain ⟨xs, c, rfl, _, _⟩ := reachable_canon v hv
  rw [contents_canon]
  exact ⟨rfl, canon_take xs c⟩

/-! ## Rendering -/

theorem intercalate_go_append (s : String) (l : List String) (p b : String) :
    String.intercalate.go (p ++ b) s l = p ++ String.intercalate.go b s l := by
  induction l generalizing b with
  | nil => rfl
  | cons x l ih =>
    simp only [String.intercalate.go]
    rw [String.append_assoc, String.append_assoc, ← String.append_assoc b s x, ih]

theorem intercalate_cons_of_ne_nil (s a : String) (l : List String) (h : l ≠ []) :
    s.intercalate (a :: l) = a ++ s ++ s.intercalate l := by
  cases l with
  | nil => exact absurd rfl h
  | cons b l =>
    simp only [String.intercalate, String.intercalate.go]
    exact intercalate_go_append s l (a ++ s) b

theorem foldl_sep_eq_intercalate {T : Type} (text : T → String) (l : List T) (e : T)
    (p : String) :
    l.foldl (fun a x => a ++ text x ++ ", ") p ++ text e
      = p ++ ", ".intercalate ((l ++ [e]).map text) := by
  induction l generalizing p with
  | nil => rfl
  | cons a l ih =>
    rw [List.foldl_cons, ih]
    have hne : (l ++ [e]).map text ≠ [] := by simp
    rw [List.cons_append, List.map_cons, intercalate_cons_of_ne_nil _ _ _ hne]
    simp only [String.append_assoc]

theorem at_of_live {T : Type} (v : vector T) (es : List T) (hsz : v._size = es.length)
    (hd : v.data.take v._size = es.map some) (i : Nat) (h : i < es.length) :
    v.operator_index i = Except.ok (es.get ⟨i, h⟩) := by
  unfold vector.operator_index vector.«at»
  have hn : ¬ i ≥ v._size := by omega
  rw [if_neg hn]
  have h1 : (v.data.take v._size).get? i = v.data.get? i := by
    simp only [List.get?_eq_getElem?]
    rw [List.getElem?_take]
    simp; omega
  have hs : slot v.data i = some (es.get ⟨i, h⟩) := by
    unfold slot
    rw [← h1, hd]
    simp [List.getElem?_eq_getElem h]
  rw [hs]

/-- C8: for `k >= 1` and `k` values `xs`: after `reserve(k)` on an empty
container the capacity is `k`, it is still `k` after each of the `k` appends,
the final size is `k`, and the values are read back in append order. -/
theorem reserve_then_append_never_grows {T : Type} (k : Nat) (xs : List T)
    (hk : 1 ≤ k) (hlen : xs.length = k) :
    ((vector.new : vector T).reserve k).capacity = k ∧
    (∀ n, n ≤ k →
      (append_each ((vector.new : vector T).reserve k) (xs.take n)).capacity = k) ∧
    (append_each ((vector.new : vector T).reserve k) xs).size = k ∧
    ∀ i : Fin xs.length,
      (append_each ((vector.new : vector T).reserve k) xs).operator_index i
        = Except.ok (xs.get i) := by
  have hres : (vector.new : vector T).reserve k = canon [] k := by
    rw [new_canon, reserve_canon [] 1 k (by simp), Nat.max_eq_right hk]
  have hrun : ∀ ys : List T, ys.length ≤ k →
      append_each (canon ([] : List T) k) ys = canon ys k := by
    intro ys hys
    rw [append_each_eq_foldl, foldl_append_canon ys [] k (by simp) hk, List.length_nil,
      cap_run_fits ys.length k 0 (by omega), List.nil_append]
  rw [hres]
  refine ⟨rfl, ?_, ?_, ?_⟩
  · intro n hn
    rw [hrun (xs.take n) (by rw [List.length_take]; omega)]
    rfl
  · rw [hrun xs (by omega)]
    exact hlen
  · intro i
    rw [hrun xs (by omega)]
    exact at_canon xs k i.1 i.2

theorem reserve_then_append_never_grows_witness :
    1 ≤ 10 ∧ [0, 1, 2, 3, 4, 5, 6, 7, 8, 9].length = 10 ∧
    (append_each ((vector.new : vector Nat).reserve 10) [0, 1, 2, 3, 4, 5, 6, 7, 8, 9]).size
      = 10 ∧
    (append_each ((vector.new : vector Nat).reserve 10)
      ([0, 1, 2, 3, 4, 5, 6, 7, 8, 9].take 10)).capacity = 10 :=
  ⟨by decide, by decide,
    (reserve_then_append_never_grows 10 [0, 1, 2, 3, 4, 5, 6, 7, 8, 9]
      (by decide) (by decide)).2.2.1,
    (reserve_then_append_never_grows 10 [0, 1, 2, 3, 4, 5, 6, 7, 8, 9]
      (by decide) (by decide)).2.1 10 (by decide)⟩

/-- C10: constructing a container from the literal sequence `ys` gives the
state (size, capacity, block) that constructing an empty container and
appending each value of `ys` in order gives; its live elements are `ys`. -/
theorem of_list_refines_append_each {T : Type} (ys : List T) :
    (vector.of_list ys : vector T) = append_each (vector.new : vector T) ys ∧
    (vector.of_list ys).size = (append_each (vector.new : vector T) ys).size ∧
    (vector.of_list ys).capacity = (append_each (vector.new : vector T) ys).capacity ∧
    contents (vector.of_list ys) = ys ∧
    (vector.of_list ys).size = ys.length := by
  have he : (vector.of_list ys : vector T) = append_each (vector.new : vector T) ys :=
    (append_each_eq_foldl ys _).symm
  refine ⟨he, by rw [he], by rw [he], ?_, ?_⟩
  · rw [he, append_each_new, contents_canon]
  · rw [he, append_each_new]
    rfl

/-- C11: the variadic constructor called with `t` and then `args` gives the
state that constructing an empty container and appending `t` and each of `args`
in order gives; its size is the number of arguments and its live elements are
the arguments in the order given. -/
theorem variadic_refines_append_each {T : Type} (t : T) (args : List T) :
    vector.variadic t args = append_each (vector.new : vector T) (t :: args) ∧
    (vector.variadic t args).size = args.length + 1 ∧
    contents (vector.variadic t args) = t :: args ∧
    ∀ i : Fin (t :: args).length,
      (vector.variadic t args).operator_index i = Except.ok ((t :: args).get i) := by
  have he : vector.variadic t args = append_each (vector.new : vector T) (t :: args) := by
    rw [append_each_eq_foldl]; rfl
  refine ⟨he, ?_, ?_, ?_⟩
  · rw [he, append_each_new]; rfl
  · rw [he, append_each_new, contents_canon]
  · intro i
    rw [he, append_each_new]
    exact at_canon (t :: args) _ i.1 i.2

/-! ## Blocks in memory -/

theorem write_of_block {T : Type} (m : memory T) (p : Nat) (b : List (Option T))
    (f : List (Option T) → List (Option T)) (h : m.blocks.get? p = some (some b)) :
    m.write p f = m.blocks.set p (some (f b)) := by
  unfold memory.write
  rw [h]
  rfl

theorem write_of_not_block {T : Type} (m : memory T) (p : Nat)
    (f : List (Option T) → List (Option T)) (h : (m.blocks.get? p).join = none) :
    m.write p f = m.blocks := by
  unfold memory.write
  rw [h]

theorem block_of_get {T : Type} (m : memory T) (p : Nat) (b : List (Option T))
    (h : m.blocks.get? p = some (some b)) : m.block p = b := by
  unfold memory.block
  rw [h]
  rfl

theorem get_of_join {T : Type} (m : memory T) (p : Nat) (b : List (Option T))
    (hb : (m.blocks.get? p).join = some b) : m.blocks.get? p = some (some b) := by
  cases hg : m.blocks.get? p with
  | none => rw [hg] at hb; cases hb
  | some ob =>
    rw [hg] at hb
    have : ob = some b := hb
    rw [this]

theorem set_of_get {α : Type} (l : List α) (p : Nat) (a : α) (h : l.get? p = some a) :
    l.set p a = l := by
  induction l generalizing p with
  | nil => rfl
  | cons x l ih =>
    cases p with
    | zero =>
      have : x = a := by simpa using h
      rw [this]; rfl
    | succ p =>
      have h2 : l.get? p = some a := by simpa using h
      simp only [List.set_cons_succ]
      rw [ih p h2]

theorem write_id {T : Type} (m : memory T) (p : Nat) :
    m.write p (fun b => b) = m.blocks := by
  cases hb : (m.blocks.get? p).join with
  | none => exact write_of_not_block m p _ hb
  | some b =>
    rw [write_of_block m p b _ (get_of_join m p b hb)]
    exact set_of_get _ p _ (get_of_join m p b hb)

theorem get_lt_length {T : Type} (m : memory T) (p : Nat) (b : List (Option T))
    (h : m.blocks.get? p = some (some b)) : p < m.blocks.length := by
  by_contra hn
  have : m.blocks.get? p = none := by
    simp only [List.get?_eq_getElem?]
    exact List.getElem?_eq_none (by omega)
  rw [this] at h
  cases h

theorem write_write {T : Type} (m : memory T) (p : Nat) (l : List Event)
    (f g : List (Option T) → List (Option T)) :
    ({ blocks := m.write p f, log := l } : memory T).write p g
      = m.write p (fun b => g (f b)) := by
  cases hb : (m.blocks.get? p).join with
  | none =>
    rw [write_of_not_block m p f hb, write_of_not_block m p _ hb]
    exact write_of_not_block _ p g hb
  | some b =>
    have hget : m.blocks.get? p = some (some b) := get_of_join m p b hb
    have hlt := get_lt_length m p b hget
    rw [write_of_block m p b f hget, write_of_block m p b _ hget]
    have hget2 : (m.blocks.set p (some (f b))).get? p = some (some (f b)) := by
      simp [List.getElem?_set, hlt]
    rw [write_of_block _ p (f b) g hget2]
    simp [List.set_set]

theorem block_write_ne {T : Type} (m : memory T) (p q : Nat) (l : List Event)
    (f : List (Option T) → List (Option T)) (h : p ≠ q) :
    ({ blocks := m.write p f, log := l } : memory T).block q = m.block q := by
  unfold memory.block
  cases hb : (m.blocks.get? p).join with
  | none => rw [write_of_not_block m p f hb]
  | some b =>
    simp only [memory.write, hb]
    simp [List.getElem?_set, h]

theorem write_set_none {T : Type} (m : memory T) (p : Nat)
    (f : List (Option T) → List (Option T)) :
    (m.write p f).set p none = m.blocks.set p none := by
  cases hb : (m.blocks.get? p).join with
  | none => rw [write_of_not_block m p f hb]
  | some b =>
    simp only [memory.write, hb]
    simp [List.set_set]

/-! ## The loops of `reserve` and of the destructor in memory -/

theorem destruct_fold {T : Type} (l : List Nat) (m : memory T) (p : Nat) :
    l.foldl (fun mm i => mm.destruct p i) m
      = { blocks := m.write p (fun b => l.foldl (fun b i => b.set i none) b),
          log := m.log ++ l.map (Event.destruct p) } := by
  induction l generalizing m with
  | nil =>
    simp only [List.foldl_nil, List.map_nil, List.append_nil]
    rw [write_id]
  | cons i l ih =>
    rw [List.foldl_cons, ih]
    simp only [memory.destruct, List.map_cons, List.foldl_cons]
    rw [write_write]
    simp

theorem move_construct_fold {T : Type} (l : List Nat) (m : memory T) (dst src : Nat)
    (h : dst ≠ src) :
    l.foldl (fun mm i => mm.move_construct dst src i) m
      = { blocks := m.write dst
            (fun b => l.foldl (fun b i => b.set i (slot (m.block src) i)) b),
          log := m.log ++ l.map (Event.move_construct dst src) } := by
  induction l generalizing m with
  | nil =>
    simp only [List.foldl_nil, List.map_nil, List.append_nil]
    rw [write_id]
  | cons i l ih =>
    rw [List.foldl_cons, ih]
    simp only [memory.move_construct, List.map_cons, List.foldl_cons]
    rw [write_write, block_write_ne m dst src _ _ h]
    simp

/-- The events of a growing `reserve`, after the allocation: the relocations,
the destructions, the deallocation. -/
theorem reserve_unfold {T : Type} (ok : Nat → Bool) (o : object) (m : memory T) (k : Nat)
    (hk : o._capacity < k) (hok : ok k = true) :
    o.reserve ok m k =
      { thrown := none,
        obj := { _capacity := k, _size := o._size, data := m.blocks.length },
        mem := (((List.range o._size).foldl
            (fun (mm : memory T) i => mm.destruct o.data i)
            ((List.range o._size).foldl
              (fun (mm : memory T) i => mm.move_construct m.blocks.length o.data i)
              ({ blocks := m.blocks ++ [some (allocate T k)],
                 log := m.log ++ [Event.allocate m.blocks.length k] } : memory T))).deallocate
          o.data o._capacity) } := by
  unfold object.reserve memory.allocate
  rw [if_neg (by omega), if_pos hok]

theorem reserve_fail {T : Type} (ok : Nat → Bool) (o : object) (m : memory T) (k : Nat)
    (hk : o._capacity < k) (hok : ok k = false) :
    o.reserve ok m k = { thrown := some Thrown.bad_alloc, obj := o, mem := m } := by
  unfold object.reserve memory.allocate
  rw [if_neg (by omega), if_neg (by simp [hok])]

theorem reserve_noop {T : Type} (ok : Nat → Bool) (o : object) (m : memory T) (k : Nat)
    (hk : k ≤ o._capacity) :
    o.reserve ok m k = { thrown := none, obj := o, mem := m } := by
  unfold object.reserve
  rw [if_pos hk]

theorem move_construct_fold_log {T : Type} (l : List Nat) (m : memory T) (dst src : Nat) :
    (l.foldl (fun mm i => mm.move_construct dst src i) m).log
      = m.log ++ l.map (Event.move_construct dst src) := by
  induction l generalizing m with
  | nil => simp
  | cons i l ih =>
    rw [List.foldl_cons, ih]
    simp [memory.move_construct]

theorem reserve_log {T : Type} (ok : Nat → Bool) (o : object) (m : memory T) (k : Nat)
    (hk : o._capacity < k) (hok : ok k = true) :
    (o.reserve ok m k).mem.log =
      m.log ++ ([Event.allocate m.blocks.length k]
        ++ (List.range o._size).map (Event.move_construct m.blocks.length o.data)
        ++ (List.range o._size).map (Event.destruct o.data)
        ++ [Event.deallocate o.data o._capacity]) := by
  rw [reserve_unfold ok o m k hk hok]
  simp only [memory.deallocate]
  rw [destruct_fold, move_construct_fold_log]
  simp only [List.append_assoc]

theorem reserve_grow {T : Type} (ok : Nat → Bool) (o : object) (m : memory T) (k : Nat)
    (xs : List T)
    (hget : m.blocks.get? o.data = some (some (canon xs o._capacity).data))
    (hsz : o._size = xs.length) (hle : xs.length ≤ o._capacity)
    (hk : o._capacity < k) (hok : ok k = true) :
    (o.reserve ok m k).mem.blocks
      = m.blocks.set o.data none ++ [some (canon xs k).data] := by
  have hlt : o.data < m.blocks.length := get_lt_length m o.data _ hget
  have hne : m.blocks.length ≠ o.data := by omega
  rw [reserve_unfold ok o m k hk hok]
  simp only [memory.deallocate]
  rw [destruct_fold]
  simp only
  rw [write_set_none, move_construct_fold _ _ _ _ hne]
  simp only
  have hnew : ({ blocks := m.blocks ++ [some (allocate T k)],
                 log := m.log ++ [Event.allocate m.blocks.length k] } : memory T).blocks.get?
        m.blocks.length = some (some (allocate T k)) := by
    simp [List.getElem?_append_right]
  have hold : ({ blocks := m.blocks ++ [some (allocate T k)],
                 log := m.log ++ [Event.allocate m.blocks.length k] } : memory T).block o.data
        = (canon xs o._capacity).data := by
    apply block_of_get
    show (m.blocks ++ [some (allocate T k)]).get? o.data = _
    rw [← hget]
    simp only [List.get?_eq_getElem?]
    exact List.getElem?_append_left hlt
  rw [write_of_block _ _ _ _ hnew, hold]
  simp only
  rw [hsz, relocate_fold (canon xs o._capacity).data k xs.length
    (by rw [canon_data_length xs _ hle]; exact hle) (by omega), canon_take]
  rw [List.set_append_right _ _ (le_refl _), Nat.sub_self, List.set_cons_zero,
    List.set_append_left _ _ hlt]
  rfl

/-! ## What reachable objects hold -/

theorem holds_reserve {T : Type} (ok : Nat → Bool) (o : object) (m : memory T) (k : Nat)
    (xs : List T) (h : o.holds m xs) :
    (o.reserve ok m k).obj.holds (o.reserve ok m k).mem xs := by
  obtain ⟨hget, hsz, hle, hc, hlog⟩ := h
  by_cases hk : k ≤ o._capacity
  · rw [reserve_noop ok o m k hk]
    exact ⟨hget, hsz, hle, hc, hlog⟩
  · have hk2 : o._capacity < k := by omega
    cases hok : ok k with
    | false =>
      rw [reserve_fail ok o m k hk2 hok]
      exact ⟨hget, hsz, hle, hc, hlog⟩
    | true =>
      have hobj : (o.reserve ok m k).obj
          = { _capacity := k, _size := o._size, data := m.blocks.length } := by
        rw [reserve_unfold ok o m k hk2 hok]
      have hb := reserve_grow ok o m k xs hget hsz hle hk2 hok
      have hl := reserve_log ok o m k hk2 hok
      refine ⟨?_, ?_, ?_, ?_, ?_⟩
      · rw [hb, hobj]
        simp only [List.get?_eq_getElem?]
        rw [List.getElem?_append_right (by simp)]
        simp
      · rw [hobj]; exact hsz
      · rw [hobj]; show xs.length ≤ k; omega
      · rw [hobj]; show 1 ≤ k; omega
      · rw [hl, hobj]
        simp

theorem holds_construct {T : Type} (o : object) (m : memory T) (xs : List T) (x : T)
    (h : o.holds m xs) (hlt : o._size < o._capacity) :
    object.holds { _capacity := o._capacity, _size := o._size + 1, data := o.data }
      (m.construct o.data o._size x) (xs ++ [x]) := by
  obtain ⟨hget, hsz, hle, hc, hlog⟩ := h
  have hp := get_lt_length m o.data _ hget
  refine ⟨?_, ?_, ?_, hc, ?_⟩
  · show (m.write o.data _).get? o.data = _
    rw [write_of_block m o.data _ _ hget]
    simp only [List.get?_eq_getElem?]
    rw [List.getElem?_set_self hp]
    show some (some ((canon xs o._capacity).data.set o._size (some x))) = _
    rw [hsz]
    show some (some ((xs.map some ++ List.replicate (o._capacity - xs.length) none).set
      xs.length (some x))) = _
    rw [set_canon_data xs o._capacity x (by omega)]
    simp [canon]
  · show o._size + 1 = (xs ++ [x]).length
    simp [hsz]
  · show (xs ++ [x]).length ≤ o._capacity
    simp; omega
  · show Event.allocate o.data o._capacity ∈ (m.construct o.data o._size x).log
    simp [memory.construct, hlog]

/-- The growth step of `append`: `resize()` when `_capacity == _size`. -/
theorem holds_growth {T : Type} (ok : Nat → Bool) (o : object) (m : memory T)
    (xs : List T) (h : o.holds m xs) :
    (if o._capacity = o._size then o.resize ok m
      else { thrown := none, obj := o, mem := m }).obj.holds
      (if o._capacity = o._size then o.resize ok m
        else { thrown := none, obj := o, mem := m }).mem xs := by
  by_cases he : o._capacity = o._size
  · rw [if_pos he]
    exact holds_reserve ok o m _ xs h
  · rw [if_neg he]
    exact h

theorem growth_room {T : Type} (ok : Nat → Bool) (o : object) (m : memory T)
    (hle : o._size ≤ o._capacity) (hc : 1 ≤ o._capacity)
    (hn : (if o._capacity = o._size then o.resize ok m
      else { thrown := none, obj := o, mem := m }).thrown = none) :
    (if o._capacity = o._size then o.resize ok m
      else { thrown := none, obj := o, mem := m }).obj._size
      < (if o._capacity = o._size then o.resize ok m
        else { thrown := none, obj := o, mem := m }).obj._capacity := by
  by_cases he : o._capacity = o._size
  · rw [if_pos he] at hn ⊢
    unfold object.resize at hn ⊢
    have hk : o._capacity < o._capacity * 2 := by omega
    cases hok : ok (o._capacity * 2) with
    | false =>
      rw [reserve_fail ok o m _ hk hok] at hn
      cases hn
    | true =>
      rw [reserve_unfold ok o m _ hk hok]
      show o._size < o._capacity * 2
      omega
  · rw [if_neg he]
    show o._size < o._capacity
    omega

theorem holds_append {T : Type} (ok : Nat → Bool) (o : object) (m : memory T)
    (value : Option T) (xs : List T) (h : o.holds m xs) :
    ∃ ys, (o.append ok m value).obj.holds (o.append ok m value).mem ys := by
  have hg := holds_growth ok o m xs h
  have hroom := growth_room ok o m (by rw [h.2.1]; exact h.2.2.1) h.2.2.2.1
  unfold object.append
  simp only
  generalize (if o._capacity = o._size then o.resize ok m
      else { thrown := none, obj := o, mem := m }) = r at hg hroom
  cases ht : r.thrown with
  | some t => exact ⟨xs, hg⟩
  | none =>
    cases value with
    | none => exact ⟨xs, hg⟩
    | some x => exact ⟨xs ++ [x], holds_construct r.obj r.mem xs x hg (hroom ht)⟩

theorem holds_new {T : Type} (ok : Nat → Bool) (m m1 : memory T) (o : object)
    (h : object.new ok m = some (o, m1)) : o.holds m1 [] := by
  unfold object.new memory.allocate at h
  cases hok : ok 1 with
  | false => rw [if_neg (by simp [hok])] at h; cases h
  | true =>
    rw [if_pos hok] at h
    simp only [Option.some.injEq, Prod.mk.injEq] at h
    obtain ⟨ho, hm⟩ := h
    subst ho
    subst hm
    refine ⟨?_, rfl, by simp, le_refl 1, by simp⟩
    simp only [List.get?_eq_getElem?]
    rw [List.getElem?_append_right (le_refl _)]
    simp [canon, allocate]

theorem holds_assign {T : Type} (o : object) (m m1 : memory T) (i : Nat) (x : T)
    (xs : List T) (h : o.holds m xs)
    (ha : o.operator_index_assign m i x = Except.ok m1) : o.holds m1 (xs.set i x) := by
  obtain ⟨hget, hsz, hle, hc, hlog⟩ := h
  have hp := get_lt_length m o.data _ hget
  unfold object.operator_index_assign at ha
  by_cases hi : i ≥ o._size
  · rw [if_pos hi] at ha; cases ha
  · rw [if_neg hi] at ha
    injection ha with ha
    subst ha
    have hlt : i < (xs.map some).length := by simp; omega
    refine ⟨?_, by simpa using hsz, by simpa using hle, hc, hlog⟩
    show (m.write o.data _).get? o.data = _
    rw [write_of_block m o.data _ _ hget]
    simp only [List.get?_eq_getElem?]
    rw [List.getElem?_set_self hp]
    simp only [canon, List.length_set]
    rw [List.set_append, if_pos hlt, List.map_set]

/-- Every reachable object owns a live block of `_capacity` slots, allocated
with that count, with the live elements in the first `_size` slots. -/
theorem reachable_holds {T : Type} (o : object) (m : memory T)
    (h : object.Reachable o m) : ∃ xs, o.holds m xs := by
  induction h with
  | new ok m m1 o hnew => exact ⟨[], holds_new ok m m1 o hnew⟩
  | append ok o m value _ ih =>
    obtain ⟨xs, hx⟩ := ih
    exact holds_append ok o m value xs hx
  | reserve ok o m k _ ih =>
    obtain ⟨xs, hx⟩ := ih
    exact ⟨xs, holds_reserve ok o m k xs hx⟩
  | assign o m m1 i value _ ha ih =>
    obtain ⟨xs, hx⟩ := ih
    exact ⟨_, holds_assign o m m1 i value xs hx ha⟩

theorem view_of_holds {T : Type} (o : object) (m : memory T) (xs : List T)
    (h : o.holds m xs) : o.view m = canon xs o._capacity := by
  obtain ⟨hget, hsz, _, _, _⟩ := h
  unfold object.view
  rw [block_of_get m o.data _ hget, hsz]
  rfl

theorem sample_reachable : object.Reachable sample_object sample_memory :=
  object.Reachable.append (fun _ => true) _ _ (some 8)
    (object.Reachable.append (fun _ => true) _ _ (some 7)
      (object.Reachable.new (fun _ => true) (memory.empty Nat)
        { blocks := [some [none]], log := [Event.allocate 0 1] }
        { _capacity := 1, _size := 0, data := 0 } rfl))

/-! ## Iteration -/

theorem slot_canon {T : Type} (xs : List T) (c i : Nat) (h : i < xs.length) :
    slot (canon xs c).data i = some (xs.get ⟨i, h⟩) := by
  simp [slot, canon, List.getElem?_append_left, h]

theorem range_for_steps {T : Type} (m : memory T) (b n d : Nat) :
    ∀ (i fuel : Nat), i + d = n → d ≤ fuel →
      m.range_for { block := b, offset := n } fuel { block := b, offset := i }
        = some ((List.range' i d).map
            (fun j => (({ block := b, offset := j } : pointer),
              m.deref { block := b, offset := j }))) := by
  induction d with
  | zero =>
    intro i fuel hi _
    have : i = n := by omega
    subst this
    cases fuel <;> simp [memory.range_for]
  | succ d ih =>
    intro i fuel hi hf
    obtain ⟨f, rfl⟩ : ∃ f, fuel = f + 1 := ⟨fuel - 1, by omega⟩
    have hne : ({ block := b, offset := i } : pointer) ≠ { block := b, offset := n } := by
      intro he
      injection he with _ ho
      omega
    simp only [memory.range_for, if_neg hne]
    rw [ih (i + 1) f (by omega) (by omega)]
    simp [List.range']

theorem map_deref_holds {T : Type} (o : object) (m : memory T) (xs : List T)
    (h : o.holds m xs) :
    (List.range o._size).map (fun j => m.deref { block := o.data, offset := j })
      = xs.map some := by
  obtain ⟨hget, hsz, _, _, _⟩ := h
  apply List.ext_getElem
  · simp [hsz]
  · intro i h1 h2
    have hi : i < xs.length := by simpa using h2
    simp only [List.getElem_map, List.getElem_range]
    unfold memory.deref
    simp only
    rw [block_of_get m o.data _ hget, slot_canon xs o._capacity i hi]
    rfl

/-- C12: for a reachable object, `end()` is `_size` positions after `begin()`
in the same block, and the traversal from `begin()` to `end()` visits exactly
the positions `0, 1, ..., _size-1` of that block in this order, reading the live
elements in index order; a second traversal of the unchanged container gives
the same sequence. -/
theorem begin_end_span_live_elements {T : Type} (o : object) (m : memory T)
    (h : object.Reachable o m) (fuel : Nat) (hf : o._size ≤ fuel) :
    o.begin.block = o.«end».block ∧ o.«end».offset - o.begin.offset = o._size ∧
    (∃ visited, m.range_for o.«end» fuel o.begin = some visited ∧
      visited.length = o._size ∧
      visited.map Prod.fst
        = (List.range o._size).map (fun j => ({ block := o.data, offset := j } : pointer)) ∧
      visited.map Prod.snd = (contents (o.view m)).map some ∧
      (contents (o.view m)).length = o._size) ∧
    (∀ fuel2, o._size ≤ fuel2 →
      m.range_for o.«end» fuel2 o.begin = m.range_for o.«end» fuel o.begin) := by
  obtain ⟨xs, hx⟩ := reachable_holds o m h
  have hrun : ∀ f, o._size ≤ f → m.range_for o.«end» f o.begin
      = some ((List.range o._size).map
          (fun j => (({ block := o.data, offset := j } : pointer),
            m.deref { block := o.data, offset := j }))) := by
    intro f hf2
    have := range_for_steps m o.data o._size o._size 0 f (by omega) hf2
    rw [List.range_eq_range']
    exact this
  refine ⟨rfl, rfl, ⟨_, hrun fuel hf, by simp, ?_, ?_, ?_⟩, ?_⟩
  · rw [List.map_map]; rfl
  · rw [List.map_map, view_of_holds o m xs hx, contents_canon, ← map_deref_holds o m xs hx]
    rfl
  · rw [view_of_holds o m xs hx, contents_canon]
    exact hx.2.1.symm
  · intro fuel2 hf2
    rw [hrun fuel2 hf2, hrun fuel hf]

theorem begin_end_span_live_elements_witness :
    object.Reachable sample_object sample_memory ∧ sample_object._size ≤ 5 ∧
    sample_object.«end».offset - sample_object.begin.offset = sample_object._size ∧
    sample_memory.range_for sample_object.«end» 2 sample_object.begin
      = sample_memory.range_for sample_object.«end» 5 sample_object.begin :=
  ⟨sample_reachable, by decide,
    (begin_end_span_live_elements sample_object sample_memory sample_reachable 5
      (by decide)).2.1,
    (begin_end_span_live_elements sample_object sample_memory sample_reachable 5
      (by decide)).2.2.2 2 (by decide)⟩

/-- C13: in a reachable state, when the allocator refuses the request made by
`reserve(k)` with `k > capacity`, or the request made by the growth step of an
`append` performed at `size == capacity`, the call ends with the allocator's
exception and the members, every block and the event log are as before the
call: nothing was moved, destructed or deallocated. -/
theorem allocation_failure_changes_nothing {T : Type} (ok : Nat → Bool) (o : object)
    (m : memory T) (h : object.Reachable o m) :
    (∀ k, o._capacity < k → ok k = false →
      o.reserve ok m k = { thrown := some Thrown.bad_alloc, obj := o, mem := m }) ∧
    (∀ value : Option T, o._size = o._capacity → ok (o._capacity * 2) = false →
      o.append ok m value = { thrown := some Thrown.bad_alloc, obj := o, mem := m }) := by
  obtain ⟨xs, hx⟩ := reachable_holds o m h
  have hc : 1 ≤ o._capacity := hx.2.2.2.1
  constructor
  · intro k hk hok
    exact reserve_fail ok o m k hk hok
  · intro value he hok
    unfold object.append object.resize
    rw [if_pos he.symm, reserve_fail ok o m _ (by omega) hok]

theorem allocation_failure_changes_nothing_witness :
    object.Reachable sample_object sample_memory ∧
    sample_object.reserve (fun n => decide (n ≤ 3)) sample_memory 10
      = { thrown := some Thrown.bad_alloc, obj := sample_object, mem := sample_memory } ∧
    sample_object.append (fun n => decide (n ≤ 3)) sample_memory (some 9)
      = { thrown := some Thrown.bad_alloc, obj := sample_object, mem := sample_memory } :=
  ⟨sample_reachable,
    (allocation_failure_changes_nothing (fun n => decide (n ≤ 3)) sample_object
      sample_memory sample_reachable).1 10 (by decide) (by decide),
    (allocation_failure_changes_nothing (fun n => decide (n ≤ 3)) sample_object
      sample_memory sample_reachable).2 (some 9) (by decide) (by decide)⟩

theorem relocations_append (l1 l2 : List Event) :
    relocations (l1 ++ l2) = relocations l1 + relocations l2 := by
  simp [relocations, List.countP_append]

theorem relocations_moves (l : List Nat) (d s : Nat) :
    relocations (l.map (Event.move_construct d s)) = l.length := by
  induction l with
  | nil => rfl
  | cons i l ih =>
    simp only [List.map_cons, List.length_cons]
    rw [← ih]
    simp [relocations, List.countP_cons]

theorem relocations_destructs (l : List Nat) (p : Nat) :
    relocations (l.map (Event.destruct p)) = 0 := by
  induction l with
  | nil => rfl
  | cons i l ih =>
    simp only [List.map_cons]
    have : relocations (Event.destruct p i :: l.map (Event.destruct p))
        = relocations (l.map (Event.destruct p)) := by
      simp [relocations, List.countP_cons]
    rw [this, ih]

theorem reserve_relocations {T : Type} (ok : Nat → Bool) (o : object) (m : memory T)
    (k : Nat) (hk : o._capacity < k) (hok : ok k = true) :
    relocations (o.reserve ok m k).mem.log = relocations m.log + o._size := by
  rw [reserve_log ok o m k hk hok]
  simp only [relocations_append, relocations_moves, relocations_destructs, List.length_range]
  simp [relocations]

theorem reserve_relocations_le {T : Type} (ok : Nat → Bool) (o : object) (m : memory T)
    (k : Nat) :
    relocations (o.reserve ok m k).mem.log ≤ relocations m.log + o._size := by
  by_cases hk : k ≤ o._capacity
  · rw [reserve_noop ok o m k hk]; exact Nat.le_add_right _ _
  · cases hok : ok k with
    | false => rw [reserve_fail ok o m k (by omega) hok]; exact Nat.le_add_right _ _
    | true => rw [reserve_relocations ok o m k (by omega) hok]

theorem construct_relocations {T : Type} (m : memory T) (p i : Nat) (x : T) :
    relocations (m.construct p i x).log = relocations m.log := by
  simp [memory.construct, relocations_append, relocations]

theorem append_relocations_le {T : Type} (ok : Nat → Bool) (o : object) (m : memory T)
    (value : Option T) :
    relocations (o.append ok m value).mem.log ≤ relocations m.log + o._size := by
  have hg : relocations (if o._capacity = o._size then o.resize ok m
      else { thrown := none, obj := o, mem := m }).mem.log ≤ relocations m.log + o._size := by
    by_cases he : o._capacity = o._size
    · rw [if_pos he]; exact reserve_relocations_le ok o m _
    · rw [if_neg he]; show relocations m.log ≤ _; omega
  unfold object.append
  simp only
  generalize (if o._capacity = o._size then o.resize ok m
      else { thrown := none, obj := o, mem := m }) = r at hg
  cases ht : r.thrown with
  | some t => exact hg
  | none =>
    cases value with
    | none => exact hg
    | some x =>
      show relocations (r.mem.construct r.obj.data r.obj._size x).log ≤ _
      rw [construct_relocations]
      exact hg

/-- One successful `append` in a state with `capacity >= 1`: the capacity and
size afterwards and the number of relocations it performed. -/
theorem append_step {T : Type} (ok : Nat → Bool) (o : object) (m : memory T) (x : T)
    (hc : 1 ≤ o._capacity) (hn : (o.append ok m (some x)).thrown = none) :
    (o.append ok m (some x)).obj._capacity = cap_step o._capacity o._size ∧
    (o.append ok m (some x)).obj._size = o._size + 1 ∧
    relocations (o.append ok m (some x)).mem.log
      = relocations m.log + (if o._capacity = o._size then o._size else 0) := by
  by_cases he : o._capacity = o._size
  · have hk : o._capacity < o._capacity * 2 := by omega
    cases hok : ok (o._capacity * 2) with
    | false =>
      exfalso
      unfold object.append object.resize at hn
      rw [if_pos he, reserve_fail ok o m _ hk hok] at hn
      cases hn
    | true =>
      have hu := reserve_unfold ok o m (o._capacity * 2) hk hok
      have hthrown : (o.reserve ok m (o._capacity * 2)).thrown = none := by rw [hu]
      have hobj : (o.reserve ok m (o._capacity * 2)).obj
          = { _capacity := o._capacity * 2, _size := o._size, data := m.blocks.length } := by
        rw [hu]
      have happ : o.append ok m (some x)
          = { thrown := none,
              obj := { _capacity := (o.reserve ok m (o._capacity * 2)).obj._capacity,
                       _size := (o.reserve ok m (o._capacity * 2)).obj._size + 1,
                       data := (o.reserve ok m (o._capacity * 2)).obj.data },
              mem := (o.reserve ok m (o._capacity * 2)).mem.construct
                (o.reserve ok m (o._capacity * 2)).obj.data
                (o.reserve ok m (o._capacity * 2)).obj._size x } := by
        unfold object.append object.resize
        rw [if_pos he]
        simp only [hthrown]
      rw [happ]
      simp only [hobj, construct_relocations, reserve_relocations ok o m _ hk hok,
        cap_step, if_pos he, and_self]
  · have happ : o.append ok m (some x)
        = { thrown := none,
            obj := { _capacity := o._capacity, _size := o._size + 1, data := o.data },
            mem := m.construct o.data o._size x } := by
      unfold object.append
      rw [if_neg he]
    rw [happ]
    simp only [construct_relocations, cap_step, if_neg he, and_self, Nat.add_zero]

theorem append_each_relocations {T : Type} (ok : Nat → Bool) (xs : List T) :
    ∀ (o : object) (m : memory T) (R : Nat), 1 ≤ o._capacity →
      relocations m.log = R + (o._capacity - 1) →
      (o._capacity + 1 ≤ 2 * o._size ∨ (o._size = 0 ∧ o._capacity = 1)) →
      (object.append_each ok o m xs).thrown = none →
      relocations (object.append_each ok o m xs).mem.log
        = R + ((object.append_each ok o m xs).obj._capacity - 1) ∧
      (object.append_each ok o m xs).obj._size = o._size + xs.length ∧
      ((object.append_each ok o m xs).obj._capacity + 1
          ≤ 2 * (object.append_each ok o m xs).obj._size ∨
        ((object.append_each ok o m xs).obj._size = 0 ∧
          (object.append_each ok o m xs).obj._capacity = 1)) := by
  induction xs with
  | nil =>
    intro o m R _ hR hQ _
    exact ⟨hR, rfl, hQ⟩
  | cons x xs ih =>
    intro o m R hc hR hQ hrun
    cases ht : (o.append ok m (some x)).thrown with
    | some t =>
      exfalso
      simp only [object.append_each, ht] at hrun
      cases hrun
    | none =>
      have hstep := append_step ok o m x hc ht
      have heq : object.append_each ok o m (x :: xs)
          = object.append_each ok (o.append ok m (some x)).obj
              (o.append ok m (some x)).mem xs := by
        simp only [object.append_each, ht]
      rw [heq] at hrun ⊢
      have hcap : (o.append ok m (some x)).obj._capacity = cap_step o._capacity o._size :=
        hstep.1
      have hc2 : 1 ≤ (o.append ok m (some x)).obj._capacity := by
        rw [hcap]; unfold cap_step; split <;> omega
      have hR2 : relocations (o.append ok m (some x)).mem.log
          = R + ((o.append ok m (some x)).obj._capacity - 1) := by
        rw [hstep.2.2, hcap, hR]; unfold cap_step; split <;> omega
      have hQ2 : (o.append ok m (some x)).obj._capacity + 1
            ≤ 2 * (o.append ok m (some x)).obj._size ∨
          ((o.append ok m (some x)).obj._size = 0 ∧
            (o.append ok m (some x)).obj._capacity = 1) := by
        rw [hcap, hstep.2.1]; unfold cap_step; split <;> omega
      have := ih _ _ R hc2 hR2 hQ2 hrun
      rw [hstep.2.1] at this
      refine ⟨this.1, ?_, this.2.2⟩
      rw [this.2.1, List.length_cons]; omega

/-! ## Agreement of the two descriptions

On an object that owns its block, `reserve` and `append` in memory compute,
when no exception is thrown, the state that `vector.reserve` and
`vector.append` compute. -/

theorem reserve_capacity {T : Type} (ok : Nat → Bool) (o : object) (m : memory T)
    (k : Nat) (hn : (o.reserve ok m k).thrown = none) :
    (o.reserve ok m k).obj._capacity = max o._capacity k := by
  by_cases hk : k ≤ o._capacity
  · rw [reserve_noop ok o m k hk, Nat.max_eq_left hk]
  · have hk2 : o._capacity < k := by omega
    cases hok : ok k with
    | false =>
      rw [reserve_fail ok o m k hk2 hok] at hn
      cases hn
    | true =>
      rw [reserve_unfold ok o m k hk2 hok, Nat.max_eq_right (by omega)]

theorem view_reserve {T : Type} (ok : Nat → Bool) (o : object) (m : memory T) (k : Nat)
    (xs : List T) (h : o.holds m xs) (hn : (o.reserve ok m k).thrown = none) :
    (o.reserve ok m k).obj.view (o.reserve ok m k).mem = (o.view m).reserve k := by
  rw [view_of_holds _ _ xs (holds_reserve ok o m k xs h), view_of_holds o m xs h,
    reserve_canon xs _ k h.2.2.1, reserve_capacity ok o m k hn]

theorem holds_append_some {T : Type} (ok : Nat → Bool) (o : object) (m : memory T)
    (x : T) (xs : List T) (h : o.holds m xs)
    (hn : (o.append ok m (some x)).thrown = none) :
    (o.append ok m (some x)).obj.holds (o.append ok m (some x)).mem (xs ++ [x]) := by
  have hg := holds_growth ok o m xs h
  have hroom := growth_room ok o m (by rw [h.2.1]; exact h.2.2.1) h.2.2.2.1
  unfold object.append at hn ⊢
  simp only at hn ⊢
  generalize (if o._capacity = o._size then o.resize ok m
      else { thrown := none, obj := o, mem := m }) = r at hg hroom hn
  cases ht : r.thrown with
  | some t => rw [ht] at hn; simp only at hn; rw [ht] at hn; cases hn
  | none => exact holds_construct r.obj r.mem xs x hg (hroom ht)

theorem view_append {T : Type} (ok : Nat → Bool) (o : object) (m : memory T) (x : T)
    (xs : List T) (h : o.holds m xs) (hn : (o.append ok m (some x)).thrown = none) :
    (o.append ok m (some x)).obj.view (o.append ok m (some x)).mem
      = (o.view m).append x := by
  have hstep := append_step ok o m x h.2.2.2.1 hn
  rw [view_of_holds _ _ _ (holds_append_some ok o m x xs h hn), view_of_holds o m xs h,
    append_canon xs _ x h.2.2.1 h.2.2.2.1, hstep.1, h.2.1]

/-! ## The order of events -/

/-- C17: for a reachable object the destructor destructs the elements at the
indices `0, 1, ..., size-1`, once each and in this order, and then deallocates
the block `data` with `_capacity` as count. That block is live, has `_capacity`
slots and was allocated with that count; its slots below `size` hold elements
and its slots from `size` on, which the destructor does not touch, are raw. -/
theorem destructor_event_order {T : Type} (o : object) (m : memory T)
    (h : object.Reachable o m) :
    (o.destroy m).log =
      m.log ++ ((List.range o._size).map (Event.destruct o.data)
        ++ [Event.deallocate o.data o._capacity]) ∧
    (∃ b, m.blocks.get? o.data = some (some b) ∧ b.length = o._capacity ∧
      (∀ i, i < o._size → ∃ x, slot b i = some x) ∧
      (∀ i, o._size ≤ i → slot b i = none)) ∧
    Event.allocate o.data o._capacity ∈ m.log ∧
    (o.destroy m).blocks.get? o.data = some none := by
  obtain ⟨xs, hx⟩ := reachable_holds o m h
  obtain ⟨hget, hsz, hle, hc, hlog⟩ := hx
  have hp := get_lt_length m o.data _ hget
  refine ⟨?_, ⟨_, hget, canon_data_length xs _ hle, ?_, ?_⟩, hlog, ?_⟩
  · unfold object.destroy
    simp only [memory.deallocate]
    rw [destruct_fold]
    simp only [List.append_assoc]
  · intro i hi
    exact ⟨_, slot_canon xs o._capacity i (by omega)⟩
  · intro i hi
    have hi2 : xs.length ≤ i := by omega
    unfold slot canon
    simp only [List.get?_eq_getElem?]
    rw [List.getElem?_append_right (by simpa using hi2)]
    cases hg : (List.replicate (o._capacity - xs.length) (none : Option T))[i -
        (List.map some xs).length]? with
    | none => rfl
    | some y =>
      have := List.getElem?_eq_some.1 hg
      obtain ⟨_, hy⟩ := this
      rw [List.getElem_replicate] at hy
      rw [← hy]; rfl
  · unfold object.destroy
    simp only [memory.deallocate]
    rw [destruct_fold]
    simp only
    rw [write_set_none]
    simp only [List.get?_eq_getElem?]
    exact List.getElem?_set_self hp

theorem destructor_event_order_witness :
    object.Reachable sample_object sample_memory ∧
    (sample_object.destroy sample_memory).log =
      sample_memory.log ++ ((List.range sample_object._size).map
          (Event.destruct sample_object.data)
        ++ [Event.deallocate sample_object.data sample_object._capacity]) :=
  ⟨sample_reachable, (destructor_event_order sample_object sample_memory sample_reachable).1⟩

/-- C18, evaluated: a copy of the sample object holds the same block as the
original; when both are destroyed the block is deallocated twice, the second
time after it has been released. -/
theorem copy_holds_same_block :
    sample_object.copy.data = sample_object.data ∧
    (sample_object.copy.destroy sample_memory).blocks.get? sample_object.data
      = some none ∧
    (sample_object.destroy (sample_object.copy.destroy sample_memory)).log
      = sample_memory.log ++
        [Event.destruct 1 0, Event.destruct 1 1, Event.deallocate 1 2,
         Event.destruct 1 0, Event.destruct 1 1, Event.deallocate 1 2] := by
  decide

/-! ## Machine integers -/

theorem to_size_t_natCast (i : Nat) (h : i < 2 ^ 64) : to_size_t (i : Int) = i := by
  unfold to_size_t
  omega

theorem int_loop_steps (size d : Nat) (hs : size ≤ 2 ^ 31 - 1) :
    ∀ (i fuel : Nat), i + d = size → d < fuel →
      int_loop size fuel (i : Int) = some ((List.range' i d).map Int.ofNat) := by
  induction d with
  | zero =>
    intro i fuel hi hf
    obtain ⟨f, rfl⟩ : ∃ f, fuel = f + 1 := ⟨fuel - 1, by omega⟩
    have hts : to_size_t (i : Int) = i := to_size_t_natCast i (by omega)
    simp only [int_loop, hts]
    rw [if_neg (by omega)]
    rfl
  | succ d ih =>
    intro i fuel hi hf
    obtain ⟨f, rfl⟩ : ∃ f, fuel = f + 1 := ⟨fuel - 1, by omega⟩
    have hts : to_size_t (i : Int) = i := to_size_t_natCast i (by omega)
    have hmax : (i : Int) + 1 ≤ INT_MAX := by unfold INT_MAX; omega
    simp only [int_loop, hts]
    rw [if_pos (by omega), if_pos hmax]
    have hcast : (i : Int) + 1 = ((i + 1 : Nat) : Int) := by omega
    rw [hcast, ih (i + 1) f (by omega) (by omega)]
    rfl

theorem foldl_set_length {α : Type} (l : List Nat) (f : Nat → α) (init : List α) :
    (l.foldl (fun nd i => nd.set i (f i)) init).length = init.length := by
  induction l generalizing init with
  | nil => rfl
  | cons i l ih => rw [List.foldl_cons, ih, List.length_set]

/-- C19: with the loop counter of `reserve` an `int` converted to `size_t` for
the comparison with `_size`: when `_size <= 2^31 - 1` each of the two loops runs
its body at exactly the indices `0, 1, ..., _size-1`, in increasing order, every
increment stays within the range of `int`, and `reserve` relocates every live
element: its result is the one computed with exact indices. -/
theorem int_counter_visits_all_indices {T : Type} (v : vector T) (fuel k : Nat)
    (hs : v._size ≤ 2 ^ 31 - 1) (hf : v._size < fuel) :
    int_loop v._size fuel 0 = some ((List.range v._size).map Int.ofNat) ∧
    (∀ i ∈ (List.range v._size).map Int.ofNat, 0 ≤ i ∧ i + 1 ≤ INT_MAX) ∧
    (v._size : Int) ≤ INT_MAX ∧
    reserve_int fuel v k = some (v.reserve k) := by
  have hloop : int_loop v._size fuel 0 = some ((List.range v._size).map Int.ofNat) := by
    have := int_loop_steps v._size v._size hs 0 fuel (by omega) hf
    rw [List.range_eq_range']
    exact this
  refine ⟨hloop, ?_, by unfold INT_MAX; omega, ?_⟩
  · intro i hi
    obtain ⟨j, hj, rfl⟩ := List.mem_map.1 hi
    have hj2 : j < v._size := List.mem_range.1 hj
    unfold INT_MAX
    constructor
    · exact Int.ofNat_nonneg j
    · show (j : Int) + 1 ≤ 2 ^ 31 - 1
      omega
  · unfold reserve_int vector.reserve
    by_cases hk : k ≤ v._capacity
    · rw [if_pos hk, if_pos hk]
    · rw [if_neg hk, if_neg hk, hloop]
      simp only [List.foldl_map]
      rfl

theorem int_counter_visits_all_indices_witness :
    (vector.of_list [7, 8, 9])._size ≤ 2 ^ 31 - 1 ∧ (vector.of_list [7, 8, 9])._size < 4 ∧
    int_loop (vector.of_list [7, 8, 9])._size 4 0
      = some ((List.range (vector.of_list [7, 8, 9])._size).map Int.ofNat) ∧
    reserve_int 4 (vector.of_list [7, 8, 9]) 6 = some ((vector.of_list [7, 8, 9]).reserve 6) :=
  ⟨by decide, by decide,
    (int_counter_visits_all_indices (vector.of_list [7, 8, 9]) 4 6 (by decide)
      (by decide)).1,
    (int_counter_visits_all_indices (vector.of_list [7, 8, 9]) 4 6 (by decide)
      (by decide)).2.2.2⟩

/-- C20: with `_capacity * 2` and `++_size` computed modulo `2^64`: in a state
with `capacity >= 1`, `size <= capacity` and `2 * capacity < 2^64`, `append`
constructs the new element at an index below the capacity in force after the
growth step, inside the block when the block has `capacity` slots, and its
result is the one computed with exact arithmetic. With capacity 0 and size 0 the
doubled capacity is 0, `reserve` does not grow, and the index is not below the
capacity. -/
theorem append64_index_below_capacity {T : Type} (v : vector T) (x : T)
    (hc : 1 ≤ v._capacity) (hs : v._size ≤ v._capacity) (h64 : 2 * v._capacity < 2 ^ 64) :
    (grown64 v)._size < (grown64 v)._capacity ∧
    (v.data.length = v._capacity → (grown64 v)._size < (grown64 v).data.length) ∧
    append64 v x = v.append x ∧
    ¬ ((grown64 ({ _capacity := 0, _size := 0, data := [] } : vector T))._size
        < (grown64 ({ _capacity := 0, _size := 0, data := [] } : vector T))._capacity) := by
  have hmod : v._capacity * 2 % 2 ^ 64 = v._capacity * 2 := Nat.mod_eq_of_lt (by omega)
  have hres : resize64 v = v.resize := by
    unfold resize64 vector.resize
    rw [hmod]
  have hg : grown64 v = if v._capacity = v._size then v.resize else v := by
    unfold grown64
    rw [hres]
  have hroom : (grown64 v)._size < (grown64 v)._capacity ∧
      (v.data.length = v._capacity → (grown64 v)._size < (grown64 v).data.length) := by
    rw [hg]
    by_cases he : v._capacity = v._size
    · rw [if_pos he]
      unfold vector.resize vector.reserve
      rw [if_neg (by omega)]
      simp only
      refine ⟨by omega, fun _ => ?_⟩
      rw [foldl_set_length]
      simp [allocate]
      omega
    · rw [if_neg he]
      exact ⟨by omega, fun hl => by omega⟩
  refine ⟨hroom.1, hroom.2, ?_, Nat.lt_irrefl 0⟩
  have hsz : (grown64 v)._size = v._size := by
    rw [hg]
    by_cases he : v._capacity = v._size
    · rw [if_pos he]
      unfold vector.resize vector.reserve
      rw [if_neg (by omega)]
    · rw [if_neg he]
  have hcap : (grown64 v)._capacity ≤ 2 * v._capacity := by
    rw [hg]
    by_cases he : v._capacity = v._size
    · rw [if_pos he]
      unfold vector.resize vector.reserve
      rw [if_neg (by omega)]
      show v._capacity * 2 ≤ 2 * v._capacity
      omega
    · rw [if_neg he]; omega
  have hinc : ((grown64 v)._size + 1) % 2 ^ 64 = (grown64 v)._size + 1 :=
    Nat.mod_eq_of_lt (by omega)
  unfold append64 vector.append
  rw [hinc, hg]

theorem append64_index_below_capacity_witness :
    1 ≤ (vector.of_list [1, 2, 3, 4])._capacity ∧
    (grown64 (vector.of_list [1, 2, 3, 4]))._size
      < (grown64 (vector.of_list [1, 2, 3, 4]))._capacity ∧
    append64 (vector.of_list [1, 2, 3, 4]) 5 = (vector.of_list [1, 2, 3, 4]).append 5 :=
  ⟨by decide,
    (append64_index_below_capacity (vector.of_list [1, 2, 3, 4]) 5 (by decide) (by decide)
      (by decide)).1,
    (append64_index_below_capacity (vector.of_list [1, 2, 3, 4]) 5 (by decide) (by decide)
      (by decide)).2.2.1⟩

/-! ## The `int` counters out of range -/

theorem int_loop_overflow (size : Nat) (hs : 2 ^ 31 ≤ size) :
    ∀ (fuel i : Nat), i ≤ 2 ^ 31 - 1 → int_loop size fuel (i : Int) = none := by
  intro fuel
  induction fuel with
  | zero => intro i _; rfl
  | succ f ih =>
    intro i hi
    have hts : to_size_t (i : Int) = i := to_size_t_natCast i (by omega)
    simp only [int_loop, hts]
    rw [if_pos (by omega)]
    by_cases hmax : (i : Int) + 1 ≤ INT_MAX
    · rw [if_pos hmax]
      have hcast : (i : Int) + 1 = ((i + 1 : Nat) : Int) := by omega
      have hi2 : i + 1 ≤ 2 ^ 31 - 1 := by unfold INT_MAX at hmax; omega
      rw [hcast, ih (i + 1) hi2]
      rfl
    · rw [if_neg hmax]

theorem int_loop_zero_overflow (size fuel : Nat) (hs : 2 ^ 31 ≤ size) :
    int_loop size fuel 0 = none :=
  int_loop_overflow size hs fuel 0 (by omega)

theorem int_loop_sound (size : Nat) :
    ∀ (fuel i : Nat) (l : List Int), i ≤ 2 ^ 31 - 1 →
      int_loop size fuel (i : Int) = some l →
      l = (List.range' i (size - i)).map Int.ofNat := by
  intro fuel
  induction fuel with
  | zero => intro i l _ h; cases h
  | succ f ih =>
    intro i l hi h
    have hts : to_size_t (i : Int) = i := to_size_t_natCast i (by omega)
    simp only [int_loop, hts] at h
    by_cases hlt : i < size
    · rw [if_pos hlt] at h
      by_cases hmax : (i : Int) + 1 ≤ INT_MAX
      · rw [if_pos hmax] at h
        have hcast : (i : Int) + 1 = ((i + 1 : Nat) : Int) := by omega
        have hi2 : i + 1 ≤ 2 ^ 31 - 1 := by unfold INT_MAX at hmax; omega
        rw [hcast] at h
        cases hr : int_loop size f ((i + 1 : Nat) : Int) with
        | none => rw [hr] at h; cases h
        | some rest =>
          rw [hr] at h
          have hrest := ih (i + 1) rest hi2 hr
          have hl : l = (i : Int) :: rest := by
            simp only [Option.map_some', Option.some.injEq] at h
            exact h.symm
          have hd : size - i = (size - (i + 1)) + 1 := by omega
          rw [hl, hrest, hd, List.range'_succ]
          rfl
      · rw [if_neg hmax] at h; cases h
    · rw [if_neg hlt] at h
      have hl : l = [] := by
        simp only [Option.some.injEq] at h
        exact h.symm
      have hd : size - i = 0 := by omega
      rw [hl, hd]
      rfl

theorem reserve_int_overflow {T : Type} (fuel : Nat) (v : vector T) (k : Nat)
    (hs : 2 ^ 31 ≤ v._size) (hk : v._capacity < k) : reserve_int fuel v k = none := by
  unfold reserve_int
  rw [if_neg (by omega), int_loop_zero_overflow v._size fuel hs]

theorem reserve_int_sound {T : Type} (fuel : Nat) (v w : vector T) (k : Nat)
    (h : reserve_int fuel v k = some w) : w = v.reserve k := by
  unfold reserve_int at h
  unfold vector.reserve
  by_cases hk : k ≤ v._capacity
  · rw [if_pos hk] at h ⊢
    injection h with h
    exact h.symm
  · rw [if_neg hk] at h ⊢
    cases hl : int_loop v._size fuel 0 with
    | none => rw [hl] at h; cases h
    | some l =>
      have hl2 := int_loop_sound v._size fuel 0 l (by omega) hl
      rw [hl] at h
      simp only [Option.some.injEq] at h
      rw [← h, hl2, Nat.sub_zero, ← List.range_eq_range']
      simp only [List.foldl_map]
      rfl

theorem reserve_size {T : Type} (v : vector T) (k : Nat) : (v.reserve k)._size = v._size := by
  unfold vector.reserve
  split <;> rfl

theorem append_int_sound {T : Type} (fuel : Nat) (v w : vector T) (x : T)
    (hc : v._capacity * 2 < 2 ^ 64) (hs : v._size + 1 < 2 ^ 64)
    (h : append_int fuel v x = some w) : w = v.append x := by
  unfold append_int at h
  unfold vector.append vector.resize
  rw [Nat.mod_eq_of_lt hc] at h
  by_cases he : v._capacity = v._size
  · rw [if_pos he] at h ⊢
    cases hr : reserve_int fuel v (v._capacity * 2) with
    | none => rw [hr] at h; cases h
    | some g =>
      rw [hr] at h
      have hg := reserve_int_sound fuel v g _ hr
      simp only [Option.some.injEq] at h
      rw [← h, hg, reserve_size, Nat.mod_eq_of_lt hs]
      simp only [reserve_size]
  · rw [if_neg he] at h ⊢
    simp only [Option.some.injEq] at h
    rw [← h, Nat.mod_eq_of_lt hs]

theorem append_int_overflow {T : Type} (fuel : Nat) (v : vector T) (x : T)
    (hs : 2 ^ 31 ≤ v._size) (he : v._capacity = v._size) (hc : v._capacity * 2 < 2 ^ 64) :
    append_int fuel v x = none := by
  unfold append_int
  rw [if_pos he, Nat.mod_eq_of_lt hc, reserve_int_overflow fuel v _ hs (by omega)]

theorem append_each_int_snoc {T : Type} (fuel : Nat) (xs : List T) (x : T) :
    ∀ v : vector T, append_each_int fuel v (xs ++ [x])
      = match append_each_int fuel v xs with
        | none => none
        | some w => append_int fuel w x := by
  induction xs with
  | nil =>
    intro v
    simp only [List.nil_append, append_each_int]
    cases append_int fuel v x <;> rfl
  | cons y ys ih =>
    intro v
    simp only [List.cons_append, append_each_int]
    cases append_int fuel v y with
    | none => rfl
    | some w => exact ih w

theorem clog_le_of_le_pow (n e : Nat) (h : n ≤ 2 ^ e) : 2 ^ Nat.clog 2 n ≤ 2 ^ e :=
  Nat.pow_le_pow_right (by decide) ((Nat.le_pow_iff_clog_le (by decide)).1 h)

theorem append_each_int_new_sound {T : Type} (fuel : Nat) (xs : List T) :
    xs.length ≤ 2 ^ 31 → ∀ w : vector T,
      append_each_int fuel (vector.new : vector T) xs = some w →
      w = canon xs (2 ^ Nat.clog 2 xs.length) := by
  induction xs using List.reverseRecOn with
  | nil =>
    intro _ w h
    simp only [append_each_int, Option.some.injEq] at h
    rw [← h, new_canon]
    simp
  | append_singleton ys y ih =>
    intro hlen w h
    have hlen2 : ys.length + 1 ≤ 2 ^ 31 := by simpa using hlen
    rw [append_each_int_snoc] at h
    cases hp : append_each_int fuel (vector.new : vector T) ys with
    | none => rw [hp] at h; cases h
    | some w1 =>
      rw [hp] at h
      have hw1 := ih (by omega) w1 hp
      have hcap : 2 ^ Nat.clog 2 ys.length ≤ 2 ^ 31 := clog_le_of_le_pow _ 31 (by omega)
      have hle : ys.length ≤ 2 ^ Nat.clog 2 ys.length := Nat.le_pow_clog (by decide) _
      have hw := append_int_sound fuel w1 w y
        (by rw [hw1]; show 2 ^ Nat.clog 2 ys.length * 2 < 2 ^ 64; omega)
        (by rw [hw1]; show ys.length + 1 < 2 ^ 64; omega) h
      rw [hw, hw1, append_canon ys _ y hle Nat.one_le_two_pow, cap_step_pow_clog,
        List.length_append, List.length_singleton]

/-- After `reserve(k)` on an empty container and `k` appends, the block of `k`
slots holds the `k` values. -/
theorem reserve_then_fill {T : Type} (k : Nat) (xs : List T) (hk : 1 ≤ k)
    (hlen : xs.length = k) :
    append_each ((vector.new : vector T).reserve k) xs = canon xs k := by
  rw [new_canon, reserve_canon [] 1 k (by simp), Nat.max_eq_right hk,
    append_each_eq_foldl, foldl_append_canon xs [] k (by simp) hk, List.length_nil,
    cap_run_fits xs.length k 0 (by omega), List.nil_append]

theorem object_reserve_int_overflow {T : Type} (fuel : Nat) (ok : Nat → Bool) (o : object)
    (m : memory T) (k : Nat) (hs : 2 ^ 31 ≤ o._size) (hk : o._capacity < k)
    (hok : ok k = true) : o.reserve_int fuel ok m k = none := by
  unfold object.reserve_int memory.allocate
  rw [if_neg (by omega), if_pos hok]
  simp only [int_loop_zero_overflow o._size fuel hs]

theorem object_append_int_overflow {T : Type} (fuel : Nat) (ok : Nat → Bool) (o : object)
    (m : memory T) (a : argument T) (hs : 2 ^ 31 ≤ o._size) (he : o._capacity = o._size)
    (hc : o._capacity * 2 < 2 ^ 64) (hok : ok (o._capacity * 2) = true) :
    o.append_int fuel ok m a = none := by
  unfold object.append_int
  rw [if_pos he, Nat.mod_eq_of_lt hc,
    object_reserve_int_overflow fuel ok o m _ hs (by omega) hok]

theorem clog_two_pow_31 : Nat.clog 2 (2 ^ 31) = 31 := Nat.clog_pow 2 31 (by decide)

theorem capacity_after_two_pow_31 :
    2 ^ Nat.clog 2 (List.replicate (2 ^ 31) (0 : Nat)).length = 2 ^ 31 := by
  rw [List.length_replicate, clog_two_pow_31]

/-! ## The claims that the machine behaviour contradicts -/

/-- C1, evaluated. The calls `v.append(7); v.append(v[0]);` on a fresh
container: the second call finds `size == capacity`, grows the block and only
then reads its argument, which refers to the released block, so it has no
defined result; with an argument outside the block the container holds 7, 7.
And 2^31 + 1 appends on a fresh container: the growth at the last append runs
the `int` counters of `reserve` out of range. -/
theorem append_of_own_element_after_growth :
    object.new (fun _ => true) (memory.empty Nat)
      = some ({ _capacity := 1, _size := 0, data := 0 },
          { blocks := [some [none]], log := [Event.allocate 0 1] }) ∧
    object.append_int 3 (fun _ => true) { _capacity := 1, _size := 0, data := 0 }
        ({ blocks := [some [none]], log := [Event.allocate 0 1] } : memory Nat)
        (argument.object (some 7))
      = some { thrown := none, obj := { _capacity := 1, _size := 1, data := 0 },
               mem := { blocks := [some [some 7]],
                        log := [Event.allocate 0 1, Event.construct 0 0] } } ∧
    object.append_int 3 (fun _ => true) { _capacity := 1, _size := 1, data := 0 }
        ({ blocks := [some [some 7]],
           log := [Event.allocate 0 1, Event.construct 0 0] } : memory Nat)
        (argument.element (object.begin { _capacity := 1, _size := 1, data := 0 }))
      = none ∧
    object.append_int 3 (fun _ => true) { _capacity := 1, _size := 1, data := 0 }
        ({ blocks := [some [some 7]],
           log := [Event.allocate 0 1, Event.construct 0 0] } : memory Nat)
        (argument.object (some 7))
      = some { thrown := none, obj := { _capacity := 2, _size := 2, data := 1 },
               mem := { blocks := [none, some [some 7, some 7]],
                        log := [Event.allocate 0 1, Event.construct 0 0, Event.allocate 1 2,
                          Event.move_construct 1 0 0, Event.destruct 0 0,
                          Event.deallocate 0 1, Event.construct 1 1] } } ∧
    (∀ fuel, append_each_int fuel (vector.new : vector Nat) (List.replicate (2 ^ 31 + 1) 0)
      = none) := by
  refine ⟨by decide, by decide, by decide, by decide, ?_⟩
  intro fuel
  rw [List.replicate_succ', append_each_int_snoc]
  cases hp : append_each_int fuel (vector.new : vector Nat) (List.replicate (2 ^ 31) 0) with
  | none => rfl
  | some w =>
    have hw := append_each_int_new_sound fuel (List.replicate (2 ^ 31) 0)
      (by rw [List.length_replicate]) w hp
    rw [capacity_after_two_pow_31] at hw
    show append_int fuel w 0 = none
    rw [hw]
    apply append_int_overflow
    · show 2 ^ 31 ≤ (List.replicate (2 ^ 31) 0).length
      rw [List.length_replicate]
    · show 2 ^ 31 = (List.replicate (2 ^ 31) 0).length
      rw [List.length_replicate]
    · show 2 ^ 31 * 2 < 2 ^ 64
      decide

theorem filled_eq (k : Nat) (hk : 1 ≤ k) : filled k = canon (List.replicate k 0) k := by
  unfold filled
  exact reserve_then_fill k (List.replicate k 0) hk (List.length_replicate k 0)

theorem filled_size (k : Nat) (hk : 1 ≤ k) : (filled k)._size = k := by
  rw [filled_eq k hk]
  exact List.length_replicate k 0

theorem filled_capacity (k : Nat) (hk : 1 ≤ k) : (filled k)._capacity = k := by
  rw [filled_eq k hk]
  rfl

theorem two_pow_31_succ_pos : 1 ≤ 2 ^ 31 + 1 := Nat.le_add_left 1 (2 ^ 31)

/-- C3, evaluated. The sample container has `size == capacity == 2`; the call
`v.append(v[0])` grows the block and then reads its argument from the released
block, so it has no defined result and index 2 does not read the appended
value; with an argument outside the block the call agrees with `object.append`.
And a container filled to `size == capacity == 2^31 + 1`: the growth step of
`append` runs the `int` counters of `reserve` out of range, so the prior
elements are not all relocated. -/
theorem append_at_capacity_reads_released_block :
    sample_object._size = sample_object._capacity ∧
    sample_object.append_int 3 (fun _ => true) sample_memory
      (argument.element sample_object.begin) = none ∧
    sample_object.append_int 3 (fun _ => true) sample_memory (argument.object (some 7))
      = some (sample_object.append (fun _ => true) sample_memory (some 7)) ∧
    (filled (2 ^ 31 + 1))._size = (filled (2 ^ 31 + 1))._capacity ∧
    (filled (2 ^ 31 + 1))._capacity = 2 ^ 31 + 1 ∧
    (∀ fuel x, append_int fuel (filled (2 ^ 31 + 1)) x = none) := by
  have hsz := filled_size (2 ^ 31 + 1) two_pow_31_succ_pos
  have hcap := filled_capacity (2 ^ 31 + 1) two_pow_31_succ_pos
  refine ⟨by decide, by decide, by decide, by rw [hsz, hcap], hcap, ?_⟩
  intro fuel x
  apply append_int_overflow
  · rw [hsz]; exact Nat.le_add_right _ _
  · rw [hsz, hcap]
  · rw [hcap]; decide

/-- C5, evaluated. With three elements `reserve(10)` keeps size and elements.
With `2^31 + 1` elements the relocation loop of `reserve(2^32)` runs its `int`
counter out of range: the call has no defined result, where the claim has all
elements kept. -/
theorem reserve_counter_out_of_range :
    reserve_int 4 (vector.of_list [7, 8, 9]) 10
      = some { _capacity := 10, _size := 3,
               data := [some 7, some 8, some 9, none, none, none, none, none, none, none] } ∧
    (filled (2 ^ 31 + 1))._size = 2 ^ 31 + 1 ∧
    (filled (2 ^ 31 + 1))._capacity < 2 ^ 32 ∧
    (∀ fuel, reserve_int fuel (filled (2 ^ 31 + 1)) (2 ^ 32) = none) := by
  have hsz := filled_size (2 ^ 31 + 1) two_pow_31_succ_pos
  have hcap := filled_capacity (2 ^ 31 + 1) two_pow_31_succ_pos
  refine ⟨by decide, hsz, by rw [hcap]; decide, ?_⟩
  intro fuel
  apply reserve_int_overflow
  · rw [hsz]; exact Nat.le_add_right _ _
  · rw [hcap]; decide

theorem operator_lshift_overflow {T : Type} (text : T → String) (fuel : Nat) (os : String)
    (v : vector T) (hs : 2 ^ 31 ≤ v._size) : v.operator_lshift text fuel os = none := by
  unfold vector.operator_lshift vector.size
  rw [int_loop_zero_overflow v._size fuel hs]

theorem loop_prefix {T : Type} (f : String → Nat → Except Exn String)
    (g : String → T → String) (es : List T) (m : Nat) (hm : m ≤ es.length)
    (hf : ∀ acc i, ∀ h : i < es.length, i < m → f acc i = Except.ok (g acc (es.get ⟨i, h⟩)))
    (acc : String) :
    (List.range m).foldlM f acc = Except.ok ((es.take m).foldl g acc) := by
  induction m with
  | zero => rfl
  | succ m ih =>
    have hlt : m < es.length := hm
    have ht : List.take (m + 1) es = List.take m es ++ [es.get ⟨m, hlt⟩] := by
      rw [List.take_succ, List.getElem?_eq_getElem hlt]; rfl
    rw [List.range_succ, List.foldlM_append,
      ih (Nat.le_of_lt hlt) (fun acc i h hi => hf acc i h (Nat.lt_succ_of_lt hi)), ht,
      List.foldl_append]
    simp only [List.foldl_cons, List.foldl_nil]
    show List.foldlM f (List.foldl g acc (List.take m es)) [m] = _
    rw [List.foldlM_cons, hf _ m hlt (Nat.lt_succ_self m)]
    rfl

/-- With at most `2^31 - 1` live elements `es` (whatever the slots past the size
hold), `operator<<` writes `[`, the textual forms of the elements of `es` in
index order joined by `", "`, and `]`. -/
theorem render_in_range {T : Type} (text : T → String) (fuel : Nat) (os : String)
    (v : vector T) (es : List T) (hsz : v._size = es.length)
    (hd : v.data.take v._size = es.map some) (hs : v._size ≤ 2 ^ 31 - 1)
    (hf : v._size < fuel) :
    v.operator_lshift text fuel os
      = some (Except.ok (os ++ "[" ++ ", ".intercalate (es.map text) ++ "]")) := by
  have hloop : int_loop v._size fuel 0 = some ((List.range v._size).map Int.ofNat) := by
    have := int_loop_steps v._size v._size hs 0 fuel (by omega) hf
    rw [List.range_eq_range']
    exact this
  unfold vector.operator_lshift vector.size
  rw [hloop]
  simp only [List.foldlM_map]
  rw [hsz]
  congr 1
  rcases Nat.eq_zero_or_pos es.length with h0 | hpos
  · have hnil : es = [] := List.length_eq_zero.1 h0
    subst hnil
    show Except.ok (os ++ "[" ++ "]") = Except.ok (os ++ "[" ++ "" ++ "]")
    rw [String.append_empty]
  · obtain ⟨k, hk⟩ : ∃ k, es.length = k + 1 := ⟨es.length - 1, by omega⟩
    have hlt : k < es.length := by omega
    have ht : es = List.take k es ++ [es.get ⟨k, hlt⟩] := by
      conv_lhs => rw [← List.take_length es, hk, List.take_succ,
        List.getElem?_eq_getElem hlt]
      rfl
    have hlast : (es.length + 2 ^ 64 - 1) % 2 ^ 64 = k := by omega
    have hts : ∀ i, i < es.length → to_size_t (Int.ofNat i) = i := by
      intro i hi
      exact to_size_t_natCast i (by omega)
    rw [hlast, hk, List.range_succ, List.foldlM_append,
      loop_prefix _ (fun a x => a ++ text x ++ ", ") es k (Nat.le_of_lt hlt)
        (by
          intro acc i h hi
          have hne : ¬ i = k := by omega
          simp only [hts i h, if_neg hne]
          rw [at_of_live v es hsz hd i h]
          rfl)]
    simp only [List.foldlM_cons, List.foldlM_nil, hts k hlt, if_true]
    rw [at_of_live v es hsz hd k hlt]
    show Except.ok (_ ++ text (es.get ⟨k, hlt⟩) ++ "]") = _
    rw [foldl_sep_eq_intercalate text (List.take k es) (es.get ⟨k, hlt⟩) (os ++ "["),
      ← ht]

/-- C7, evaluated. The container 1, 2, 3, 4, 5 renders as `[1, 2, 3, 4, 5]` and
the empty container as `[]`. With `2^31 + 1` elements the `int` counter of
`operator<<` runs out of range before the last element: the call has no defined
result, where the claim has every element rendered. -/
theorem render_counter_out_of_range :
    (((vector.of_list [1, 2, 3]).append 4).append 5).operator_lshift
        (fun n : Nat => toString n) 6 "Numbers: "
      = some (Except.ok "Numbers: [1, 2, 3, 4, 5]") ∧
    (vector.new : vector Nat).operator_lshift (fun n : Nat => toString n) 1 ""
      = some (Except.ok "[]") ∧
    (∀ (text : Nat → String) (fuel : Nat) (os : String),
      (filled (2 ^ 31 + 1)).operator_lshift text fuel os = none) := by
  have hsz := filled_size (2 ^ 31 + 1) two_pow_31_succ_pos
  refine ⟨by rfl, by rfl, ?_⟩
  intro text fuel os
  apply operator_lshift_overflow
  rw [hsz]
  exact Nat.le_add_right _ _

/-- C9, evaluated. On the container 1, 2, 3 the call `append({4, 5})` gives the
elements 1, 2, 3, 4, 5. On a container filled to `size == capacity == 2^31 + 1`
the call `append({0})` grows the block with the `int` counters of `reserve` out
of range: it has no defined result, where the claim has the previous contents
followed by the new value. -/
theorem append_list_counter_out_of_range :
    append_list_int 5 (vector.of_list [1, 2, 3]) [4, 5]
      = some { _capacity := 8, _size := 5,
               data := [some 1, some 2, some 3, some 4, some 5, none, none, none] } ∧
    (∀ fuel, append_list_int fuel (filled (2 ^ 31 + 1)) [0] = none) := by
  have hsz := filled_size (2 ^ 31 + 1) two_pow_31_succ_pos
  have hcap := filled_capacity (2 ^ 31 + 1) two_pow_31_succ_pos
  refine ⟨by decide, ?_⟩
  intro fuel
  have h : append_int fuel (filled (2 ^ 31 + 1)) 0 = none := by
    apply append_int_overflow
    · rw [hsz]; exact Nat.le_add_right _ _
    · rw [hsz, hcap]
    · rw [hcap]; decide
  unfold append_list_int
  rw [List.foldlM_cons, h]
  rfl

/-- C15, evaluated. The third append on the sample container (built by two
appends, one relocation so far) relocates its two elements: three relocations
for capacity 4. At `size == capacity == 2^31`, the state before the append
number `2^31 + 1` on a fresh container, and at `size == capacity == 2^32`, the
growth step runs the `int` counter of the relocation loop out of range: the
call has no defined result, where the claim counts `capacity` relocations. -/
theorem growth_relocation_counter_out_of_range :
    relocations sample_memory.log = 1 ∧
    (sample_object.append_int 3 (fun _ => true) sample_memory
        (argument.object (some 9))).map (fun r => (r.obj._capacity, relocations r.mem.log))
      = some (4, 3) ∧
    (∀ (fuel : Nat) (m : memory Nat) (a : argument Nat),
      object.append_int fuel (fun _ => true)
        { _capacity := 2 ^ 31, _size := 2 ^ 31, data := 31 } m a = none) ∧
    (∀ (fuel : Nat) (m : memory Nat) (a : argument Nat),
      object.append_int fuel (fun _ => true)
        { _capacity := 2 ^ 32, _size := 2 ^ 32, data := 32 } m a = none) := by
  refine ⟨by decide, by decide, ?_, ?_⟩
  · intro fuel m a
    exact object_append_int_overflow fuel _ _ m a (Nat.le_refl _) rfl (by decide) rfl
  · intro fuel m a
    exact object_append_int_overflow fuel _ _ m a (by decide) rfl (by decide) rfl

/-- C16, evaluated. On the sample object `reserve(5)` logs the allocation of 5
slots, the two move-constructions, the two destructions and the deallocation of
the old block, in this order. On an object with `2^31 + 1` elements, whatever
the memory, `reserve(2^32)` runs the `int` counter of its relocation loop out of
range after the allocation: the call has no defined result, where the claim
lists a move-construction and a destruction for every index below the size. -/
theorem reserve_event_counter_out_of_range :
    (sample_object.reserve_int 3 (fun _ => true) sample_memory 5).map (fun r => r.mem.log)
      = some (sample_memory.log ++
          [Event.allocate 2 5, Event.move_construct 2 1 0, Event.move_construct 2 1 1,
           Event.destruct 1 0, Event.destruct 1 1, Event.deallocate 1 2]) ∧
    (∀ (fuel : Nat) (m : memory Nat),
      object.reserve_int fuel (fun _ => true)
        { _capacity := 2 ^ 31 + 1, _size := 2 ^ 31 + 1, data := 1 } m (2 ^ 32) = none) := by
  refine ⟨by decide, ?_⟩
  intro fuel m
  exact object_reserve_int_overflow fuel _ _ m _ (Nat.le_add_right _ _) (by decide) rfl

end veclib
